import Mathlib

/-!
# Verification of the FX-Lua-Tools lexical sanitizer and diagnostic passes

This file gives a shallow embedding, in Lean 4, of the pure core of the
JericoFX Lua Tools static-analysis engine (`src/extension.ts`,
`src/documentation-parser.ts`, `src/documentation-manager.ts`):

* the lexical sanitizer `tokenizeLua` together with its long-bracket helpers
  `isLongBracketStart` / `isLongBracketEnd`;
* the line splitter used by `createLuaDiagnosticContext` (JS `split(/\r?\n/)`);
* the block matcher `findBlockEnd` and the diagnostic passes
  `checkWhileLoops`, `checkGlobalVariables`, `checkCitizenPatterns`,
  `checkLocalFunctionOrder`;
* the documentation extractor `DocumentationParser.parseLuaTypes`;
* the refresh loop of `DocumentationManager` with the network modelled as an
  explicit per-source outcome.

JavaScript regexes used by the passes are embedded as explicit backtracking
matchers (greedy quantifiers try the longest repetition first, lazy ones the
shortest, alternation is ordered), one definition per regex of the source.
Strings are modelled as `List Char`.
-/

namespace FxLua

/-! ## Character classes (ASCII restrictions of the JS classes) -/

/-- JS `\w`: `[A-Za-z0-9_]`. -/
def wordChar (c : Char) : Bool :=
  c.isAlpha || c.isDigit || c = '_'

/-- First character of the identifier class `[a-zA-Z_]`. -/
def identStart (c : Char) : Bool :=
  c.isAlpha || c = '_'

/-- JS `\s` (ASCII part, as exercised by Lua source text). -/
def jsWs (c : Char) : Bool :=
  c = ' ' || c = '\t' || c = '\n' || c = '\r' || c = '\x0b' || c = '\x0c'

/-- JS `.` (anything but a line terminator). -/
def dotChar (c : Char) : Bool :=
  !(c = '\n' || c = '\r')

/-- JS `String.prototype.trim`, on the whitespace actually present in Lua
source (ASCII whitespace). -/
def jsTrim (l : List Char) : List Char :=
  ((l.dropWhile jsWs).reverse.dropWhile jsWs).reverse

/-- JS `String.prototype.includes`: substring test. -/
def hasSubstr : List Char → List Char → Bool
  | l, sub =>
    if sub.isPrefixOf l then true
    else
      match l with
      | [] => false
      | _ :: t => hasSubstr t sub

/-- JS `String.prototype.indexOf`: index of the first occurrence of `sub`,
`-1` when absent. -/
def jsIndexOf : List Char → List Char → Int
  | l, sub =>
    if sub.isPrefixOf l then 0
    else
      match l with
      | [] => -1
      | _ :: t =>
        let r := jsIndexOf t sub
        if r = -1 then -1 else r + 1

/-- Prepend a character to the first piece of a split result (the no-separator
case of the splitters below). -/
def consHead (c : Char) : List (List Char) → List (List Char)
  | [] => [[c]]
  | l :: ls => (c :: l) :: ls

/-- JS `String.prototype.split('\n')`. -/
def splitOnNl : List Char → List (List Char)
  | [] => [[]]
  | c :: t =>
    if c = '\n' then [] :: splitOnNl t
    else consHead c (splitOnNl t)

/-- JS `String.prototype.split(/\r?\n/)`: a separator is `"\r\n"` or `"\n"`;
a lone `'\r'` is ordinary text. Used by `createLuaDiagnosticContext`. -/
def splitLinesJS : List Char → List (List Char)
  | [] => [[]]
  | c :: t =>
    if c = '\n' then [] :: splitLinesJS t
    else if c = '\r' then
      match t with
      | '\n' :: t2 => [] :: splitLinesJS t2
      | t3 => consHead c (splitLinesJS t3)
    else consHead c (splitLinesJS t)

theorem splitLinesJS_nl (t : List Char) :
    splitLinesJS ('\n' :: t) = [] :: splitLinesJS t := by
  rw [splitLinesJS.eq_def]
  simp

theorem splitLinesJS_crnl (t : List Char) :
    splitLinesJS ('\r' :: '\n' :: t) = [] :: splitLinesJS t := by
  rw [splitLinesJS.eq_def]
  simp

theorem splitLinesJS_other (c : Char) (t : List Char) (hc : c ≠ '\n')
    (hcr : ¬(c = '\r' ∧ t.head? = some '\n')) :
    splitLinesJS (c :: t) = consHead c (splitLinesJS t) := by
  rw [splitLinesJS.eq_def]
  simp only [if_neg hc]
  by_cases hr : c = '\r'
  · rw [if_pos hr]
    split
    · exact absurd ⟨hr, rfl⟩ hcr
    · rfl
  · rw [if_neg hr]

/-! ## Long-bracket helpers (`isLongBracketStart`, `isLongBracketEnd`)

The TS functions take `(text, index)`; the embedding works on the suffix of
the text that starts at `index`. -/

/-- Length of the leading run of `'='` characters
(the `while (text[cursor] === '=')` loop of `isLongBracketStart`). -/
def countEqPrefix : List Char → Nat
  | [] => 0
  | c :: t => if c = '=' then countEqPrefix t + 1 else 0

/-- `isLongBracketStart`: at a `'['`, scan equals signs, require a second
`'['`; returns `(length, level)` on success (`length = level + 2`). -/
def isLongBracketStart (t : List Char) : Option (Nat × Nat) :=
  match t with
  | [] => none
  | c :: rest =>
    if c = '[' then
      if (rest.drop (countEqPrefix rest)).head? = some '[' then
        some (countEqPrefix rest + 2, countEqPrefix rest)
      else none
    else none

/-- The bounded equals scan of `isLongBracketEnd`:
`while (text[cursor] === '=' && matchedEquals <= level) matchedEquals++`. -/
def eqScan : List Char → Nat → Nat → Nat
  | c :: t, level, me =>
    if c = '=' && me ≤ level then eqScan t level (me + 1) else me
  | [], _, me => me

/-- `isLongBracketEnd`: at a `']'`, scan at most `level + 1` equals signs and
require exactly `level` of them followed by `']'`; returns the length
`level + 2` of the closing delimiter on success. -/
def isLongBracketEnd (t : List Char) (level : Nat) : Option Nat :=
  match t with
  | [] => none
  | c :: rest =>
    if c = ']' then
      if eqScan rest level 0 = level ∧ (rest.drop (eqScan rest level 0)).head? = some ']' then
        some (eqScan rest level 0 + 2)
      else none
    else none

/-! ## The sanitizer `tokenizeLua`

The `while` loop of `tokenizeLua` is embedded as a step function
(one loop iteration: emitted characters, next state, characters consumed)
driven by `tokGo`. -/

/-- The scanner state of `tokenizeLua`: the boolean flags
`inLineComment / inBlockComment / inString / inLongString` with their
associated level or delimiter. -/
inductive TokState where
  | default : TokState
  | lineComment : TokState
  | blockComment (level : Nat) : TokState
  | inString (delim : Char) : TokState
  | longString (level : Nat) : TokState
  deriving Repr, DecidableEq

/-- One iteration of the `tokenizeLua` loop: returns the characters appended
to `result`, the next state, and the number of input characters consumed. -/
def tokStep : TokState → List Char → List Char × TokState × Nat
  | st, [] => ([], st, 0)
  | .lineComment, c :: _ =>
    if c = '\n' then (['\n'], .default, 1) else ([' '], .lineComment, 1)
  | .blockComment level, c :: t =>
    match isLongBracketEnd (c :: t) level with
    | some len => (List.replicate len ' ', .default, len)
    | none => ([if c = '\n' then '\n' else ' '], .blockComment level, 1)
  | .longString level, c :: t =>
    match isLongBracketEnd (c :: t) level with
    | some len => (List.replicate len ' ', .default, len)
    | none => ([if c = '\n' then '\n' else ' '], .longString level, 1)
  | .inString delim, c :: rest =>
    if c = '\\' ∧ rest ≠ [] then
      ([' ', if rest.head? = some '\n' then '\n' else ' '], .inString delim, 2)
    else if c = delim then ([' '], .default, 1)
    else ([if c = '\n' then '\n' else ' '], .inString delim, 1)
  | .default, c :: rest =>
    if c = '-' ∧ rest.head? = some '-' then
      match isLongBracketStart (rest.drop 1) with
      | some (len, level) =>
        (List.replicate (2 + len) ' ', .blockComment level, 2 + len)
      | none => ([' ', ' '], .lineComment, 2)
    else
      match isLongBracketStart (c :: rest) with
      | some (len, level) => (List.replicate len ' ', .longString level, len)
      | none =>
        if c = '"' ∨ c = '\'' then ([' '], .inString c, 1)
        else ([c], .default, 1)

theorem eqScan_le : ∀ (l : List Char) (level me : Nat),
    eqScan l level me ≤ max me (level + 1) := by
  intro l
  induction l with
  | nil => intro level me; simp [eqScan]
  | cons c t ih =>
    intro level me
    simp only [eqScan]
    split
    · rename_i h
      have hme : me ≤ level := by
        rcases Bool.and_eq_true_iff.1 h with ⟨_, h2⟩
        exact of_decide_eq_true h2
      have := ih level (me + 1)
      have hmax : max (me + 1) (level + 1) = level + 1 := by omega
      omega
    · omega

theorem isLongBracketStart_len {t : List Char} {len level : Nat}
    (h : isLongBracketStart t = some (len, level)) : len = level + 2 := by
  unfold isLongBracketStart at h
  rcases t with _ | ⟨c, rest⟩
  · simp at h
  · simp only at h
    split at h
    · split at h
      · simp only [Option.some.injEq, Prod.mk.injEq] at h
        omega
      · simp at h
    · simp at h

theorem isLongBracketEnd_len {t : List Char} {level len : Nat}
    (h : isLongBracketEnd t level = some len) : len = level + 2 := by
  unfold isLongBracketEnd at h
  rcases t with _ | ⟨c, rest⟩
  · simp at h
  · simp only at h
    split at h
    · split at h
      · rename_i hcond
        simp only [Option.some.injEq] at h
        omega
      · simp at h
    · simp at h

/-- The consumed count of a `tokStep` on a nonempty input is positive
(every loop iteration advances `i`). -/
theorem tokStep_pos (st : TokState) (c : Char) (t : List Char) :
    1 ≤ (tokStep st (c :: t)).2.2 := by
  cases st with
  | lineComment => by_cases h : c = '\n' <;> simp [tokStep, h]
  | blockComment level =>
    simp only [tokStep]
    cases h : isLongBracketEnd (c :: t) level with
    | none => simp
    | some len => have := isLongBracketEnd_len h; simp; omega
  | longString level =>
    simp only [tokStep]
    cases h : isLongBracketEnd (c :: t) level with
    | none => simp
    | some len => have := isLongBracketEnd_len h; simp; omega
  | inString delim =>
    simp only [tokStep]
    split
    · simp
    · split <;> simp
  | default =>
    simp only [tokStep]
    split
    · cases h : isLongBracketStart (t.drop 1) with
      | none => simp
      | some p => cases p; simp; omega
    · cases h : isLongBracketStart (c :: t) with
      | none =>
        simp only
        split <;> simp
      | some p =>
        cases p with
        | mk len level =>
          have := isLongBracketStart_len h
          simp only
          omega

/-- The driver of the `tokenizeLua` loop. -/
def tokGo (st : TokState) (s : List Char) : List Char :=
  match h : s with
  | [] => []
  | c :: t =>
    let step := tokStep st s
    step.1 ++ tokGo step.2.1 (s.drop step.2.2)
termination_by s.length
decreasing_by
  have hpos : 1 ≤ (tokStep st (c :: t)).2.2 := tokStep_pos st c t
  simp only [List.length_drop, h, List.length_cons]
  omega

/-- Executable form of the loop driver: the `while (i < text.length)` loop of
`tokenizeLua` runs at most `text.length` iterations, since every iteration
advances `i` by at least one; the first argument counts the remaining
permitted iterations. Structural recursion on that bound lets concrete runs
of the sanitizer be evaluated by the kernel; `tokGoFuel_eq_tokGo` identifies
it with `tokGo`. -/
def tokGoFuel : Nat → TokState → List Char → List Char
  | 0, _, _ => []
  | _ + 1, _, [] => []
  | fuel + 1, st, c :: t =>
    (tokStep st (c :: t)).1 ++
      tokGoFuel fuel (tokStep st (c :: t)).2.1 ((c :: t).drop (tokStep st (c :: t)).2.2)

/-- `tokenizeLua` itself: run the scanner from the initial (all-flags-false)
state; the iteration budget `s.data.length` is never exhausted. -/
def tokenizeLua (s : String) : String :=
  ⟨tokGoFuel s.data.length .default s.data⟩

/-! ## Shape preservation of the sanitizer

`charOk a b` relates an input character `a` to the output character `b` the
sanitizer produced at the same position: the output is either the input
character itself or a space, and newlines are preserved exactly. -/

/-- Pointwise relation between raw and sanitized text. -/
def charOk (a b : Char) : Prop :=
  (b = a ∨ b = ' ') ∧ (b = '\n' ↔ a = '\n')

theorem forall₂_append {r : Char → Char → Prop} {a b c d : List Char}
    (h1 : List.Forall₂ r a b) (h2 : List.Forall₂ r c d) :
    List.Forall₂ r (a ++ c) (b ++ d) := by
  induction h1 with
  | nil => simpa using h2
  | cons hx _ ih => exact List.Forall₂.cons hx ih

/-- A run of characters that contains no newline is `charOk`-related to the
space mask of the same length. -/
theorem forall₂_mask {l : List Char} (h : ∀ x ∈ l, x ≠ '\n') :
    List.Forall₂ charOk l (List.replicate l.length ' ') := by
  induction l with
  | nil => simp
  | cons c t ih =>
    simp only [List.length_cons, List.replicate_succ]
    refine List.Forall₂.cons ?_ (ih (fun x hx => h x (List.mem_cons_of_mem c hx)))
    refine ⟨Or.inr rfl, ?_⟩
    have hc : c ≠ '\n' := h c (List.mem_cons_self c t)
    simp [hc]

/-- The equals scan consumes a prefix of equals signs. -/
theorem eqScan_spec : ∀ (l : List Char) (level me : Nat),
    ∃ k, eqScan l level me = me + k ∧ l.take k = List.replicate k '=' := by
  intro l
  induction l with
  | nil => intro level me; exact ⟨0, rfl, rfl⟩
  | cons c t ih =>
    intro level me
    simp only [eqScan]
    split
    · rename_i h
      have hc : c = '=' := by
        rcases Bool.and_eq_true_iff.1 h with ⟨h1, _⟩
        exact of_decide_eq_true h1
      obtain ⟨k, hk, htake⟩ := ih level (me + 1)
      exact ⟨k + 1, by omega, by simp [hc, List.replicate_succ, htake]⟩
    · exact ⟨0, rfl, rfl⟩

/-- On a list of `k` equals signs followed by a non-equals character, the
bounded scan counts exactly `k` when the cap `level + 1` is not hit. -/
theorem eqScan_repl : ∀ (k : Nat) (level me : Nat) (c : Char) (r : List Char),
    c ≠ '=' → me + k ≤ level + 1 →
    eqScan (List.replicate k '=' ++ c :: r) level me = me + k := by
  intro k
  induction k with
  | zero =>
    intro level me c r hc _
    simp [eqScan, hc]
  | succ k ih =>
    intro level me c r hc hle
    rw [List.replicate_succ, List.cons_append]
    have hme : me ≤ level := by omega
    rw [show eqScan ('=' :: (List.replicate k '=' ++ c :: r)) level me =
        eqScan (List.replicate k '=' ++ c :: r) level (me + 1) from by
      simp [eqScan, hme]]
    rw [ih level (me + 1) c r hc (by omega)]
    omega

theorem countEqPrefix_take : ∀ l : List Char,
    l.take (countEqPrefix l) = List.replicate (countEqPrefix l) '=' := by
  intro l
  induction l with
  | nil => simp [countEqPrefix]
  | cons c t ih =>
    simp only [countEqPrefix]
    split
    · rename_i hc
      subst hc
      simp only [List.take_succ_cons, List.replicate_succ]
      rw [ih]
    · simp

theorem countEqPrefix_repl : ∀ (k : Nat) (c : Char) (r : List Char), c ≠ '=' →
    countEqPrefix (List.replicate k '=' ++ c :: r) = k := by
  intro k
  induction k with
  | zero =>
    intro c r hc
    simp [countEqPrefix, hc]
  | succ k ih =>
    intro c r hc
    rw [List.replicate_succ, List.cons_append]
    simp [countEqPrefix, ih c r hc]

/-- The shape of a long-bracket opener: the recognized delimiter is exactly
`'['`, `level` equals signs, `'['`. -/
theorem isLongBracketStart_shape {t : List Char} {len level : Nat}
    (h : isLongBracketStart t = some (len, level)) :
    len = level + 2 ∧
      ∃ rest2, t = '[' :: List.replicate level '=' ++ '[' :: rest2 := by
  unfold isLongBracketStart at h
  rcases t with _ | ⟨c, rest⟩
  · simp at h
  · simp only at h
    split at h
    case isFalse => simp at h
    case isTrue hc =>
      subst hc
      split at h
      case isFalse => simp at h
      case isTrue hhead =>
        simp only [Option.some.injEq, Prod.mk.injEq] at h
        obtain ⟨hlen, hlvl⟩ := h
        subst hlvl
        refine ⟨by omega, ?_⟩
        obtain ⟨r2, hr2⟩ : ∃ r2, rest.drop (countEqPrefix rest) = '[' :: r2 := by
          cases hd : rest.drop (countEqPrefix rest) with
          | nil => rw [hd] at hhead; simp at hhead
          | cons x xs =>
            rw [hd] at hhead
            simp only [List.head?_cons, Option.some.injEq] at hhead
            subst hhead
            exact ⟨xs, rfl⟩
        refine ⟨r2, ?_⟩
        have hrest : rest = List.replicate (countEqPrefix rest) '=' ++ '[' :: r2 := by
          conv_lhs => rw [← List.take_append_drop (countEqPrefix rest) rest]
          rw [countEqPrefix_take, hr2]
        rw [List.cons_append, ← hrest]

/-- Conversely, at an opener-shaped prefix the helper recognizes the opener. -/
theorem isLongBracketStart_of_shape (level : Nat) (rest : List Char) :
    isLongBracketStart ('[' :: List.replicate level '=' ++ '[' :: rest) =
      some (level + 2, level) := by
  rw [List.cons_append]
  unfold isLongBracketStart
  simp only [if_pos rfl]
  have hcount : countEqPrefix (List.replicate level '=' ++ '[' :: rest) = level :=
    countEqPrefix_repl level '[' rest (by decide)
  rw [hcount]
  rw [List.drop_append_of_le_length (by simp)]
  simp

/-- The shape of a long-bracket closer of level `level`: exactly `']'`,
`level` equals signs, `']'`; the returned length is `level + 2`. -/
theorem isLongBracketEnd_shape {t : List Char} {level len : Nat}
    (h : isLongBracketEnd t level = some len) :
    len = level + 2 ∧
      ∃ rest2, t = ']' :: List.replicate level '=' ++ ']' :: rest2 := by
  unfold isLongBracketEnd at h
  rcases t with _ | ⟨c, rest⟩
  · simp at h
  · simp only at h
    split at h
    case isFalse => simp at h
    case isTrue hc =>
      subst hc
      split at h
      case isFalse => simp at h
      case isTrue hcond =>
        obtain ⟨hme, hhead⟩ := hcond
        simp only [Option.some.injEq] at h
        refine ⟨by omega, ?_⟩
        obtain ⟨k, hk, htake⟩ := eqScan_spec rest level 0
        have hkl : k = level := by omega
        rw [hkl] at htake
        rw [hme] at hhead
        obtain ⟨r2, hr2⟩ : ∃ r2, rest.drop level = ']' :: r2 := by
          cases hd : rest.drop level with
          | nil => rw [hd] at hhead; simp at hhead
          | cons x xs =>
            rw [hd] at hhead
            simp only [List.head?_cons, Option.some.injEq] at hhead
            subst hhead
            exact ⟨xs, rfl⟩
        refine ⟨r2, ?_⟩
        have hrest : rest = List.replicate level '=' ++ ']' :: r2 := by
          conv_lhs => rw [← List.take_append_drop level rest]
          rw [htake, hr2]
        rw [List.cons_append, ← hrest]

/-- Conversely, a closer-shaped prefix is recognized at its own level. -/
theorem isLongBracketEnd_of_shape (level : Nat) (rest : List Char) :
    isLongBracketEnd (']' :: List.replicate level '=' ++ ']' :: rest) level =
      some (level + 2) := by
  rw [List.cons_append]
  unfold isLongBracketEnd
  simp only [if_pos rfl]
  have hscan : eqScan (List.replicate level '=' ++ ']' :: rest) level 0 = level := by
    simpa using eqScan_repl level level 0 ']' rest (by decide) (by omega)
  rw [hscan]
  rw [List.drop_append_of_le_length (by simp)]
  simp

theorem tokGo_nil (st : TokState) : tokGo st [] = [] := by
  rw [tokGo]

theorem tokGo_cons (st : TokState) (c : Char) (t : List Char) :
    tokGo st (c :: t) =
      (tokStep st (c :: t)).1 ++
        tokGo (tokStep st (c :: t)).2.1 ((c :: t).drop (tokStep st (c :: t)).2.2) := by
  rw [tokGo]

theorem tokGoFuel_eq_tokGo : ∀ (fuel : Nat) (st : TokState) (s : List Char),
    s.length ≤ fuel → tokGoFuel fuel st s = tokGo st s := by
  intro fuel
  induction fuel with
  | zero =>
    intro st s h
    have : s = [] := List.eq_nil_of_length_eq_zero (by omega)
    subst this
    rw [tokGo_nil]
    rfl
  | succ fuel ih =>
    intro st s h
    cases s with
    | nil => rw [tokGo_nil]; rfl
    | cons c t =>
      rw [tokGo_cons]
      simp only [tokGoFuel]
      congr 1
      apply ih
      have := tokStep_pos st c t
      simp only [List.length_drop, List.length_cons]
      simp only [List.length_cons] at h
      omega

/-- The sanitizer in terms of the abstract driver. -/
theorem tokenizeLua_data (s : String) :
    (tokenizeLua s).data = tokGo .default s.data := by
  unfold tokenizeLua
  exact tokGoFuel_eq_tokGo s.data.length .default s.data le_rfl

/-- The consumed prefix at a recognized long-bracket closer is `charOk`-related
to its space mask. -/
theorem closer_take_charOk {s : List Char} {level len : Nat}
    (h : isLongBracketEnd s level = some len) :
    List.Forall₂ charOk (s.take len) (List.replicate len ' ') := by
  obtain ⟨hlen, rest2, hs⟩ := isLongBracketEnd_shape h
  subst hlen
  subst hs
  have htake : ((']' :: List.replicate level '=') ++ ']' :: rest2).take (level + 2) =
      (']' :: List.replicate level '=') ++ [']'] := by
    rw [List.take_append_eq_append_take]
    rw [List.take_of_length_le (by simp)]
    have h1 : level + 2 - (']' :: List.replicate level '=').length = 1 := by
      simp
    rw [h1]
    simp
  rw [List.cons_append] at htake ⊢
  rw [htake]
  have hnl : ∀ x ∈ (']' :: List.replicate level '=') ++ [']'], x ≠ '\n' := by
    intro x hx
    have hx2 : x = ']' ∨ x = '=' := by
      simp only [List.mem_append, List.mem_cons, List.mem_replicate,
        List.mem_singleton] at hx
      tauto
    rcases hx2 with rfl | rfl <;> decide
  have hmask := forall₂_mask hnl
  have hl : ((']' :: List.replicate level '=') ++ [']']).length = level + 2 := by simp
  rw [hl] at hmask
  rw [List.cons_append] at hmask
  exact hmask

/-- The consumed prefix at a recognized long-bracket opener is `charOk`-related
to its space mask. -/
theorem opener_take_charOk {s : List Char} {len level : Nat}
    (h : isLongBracketStart s = some (len, level)) :
    List.Forall₂ charOk (s.take len) (List.replicate len ' ') := by
  obtain ⟨hlen, rest2, hs⟩ := isLongBracketStart_shape h
  subst hlen
  subst hs
  have htake : (('[' :: List.replicate level '=') ++ '[' :: rest2).take (level + 2) =
      ('[' :: List.replicate level '=') ++ ['['] := by
    rw [List.take_append_eq_append_take]
    rw [List.take_of_length_le (by simp)]
    have h1 : level + 2 - ('[' :: List.replicate level '=').length = 1 := by
      simp
    rw [h1]
    simp
  rw [List.cons_append] at htake ⊢
  rw [htake]
  have hnl : ∀ x ∈ ('[' :: List.replicate level '=') ++ ['['], x ≠ '\n' := by
    intro x hx
    have hx2 : x = '[' ∨ x = '=' := by
      simp only [List.mem_append, List.mem_cons, List.mem_replicate,
        List.mem_singleton] at hx
      tauto
    rcases hx2 with rfl | rfl <;> decide
  have hmask := forall₂_mask hnl
  have hl : (('[' :: List.replicate level '=') ++ ['[']).length = level + 2 := by simp
  rw [hl] at hmask
  rw [List.cons_append] at hmask
  exact hmask

/-- States reachable from the initial scanner state: a short-string state
always carries one of the two quote delimiters (in particular not a newline).
-/
def stValid : TokState → Prop
  | .inString d => d = '"' ∨ d = '\''
  | _ => True

theorem stValid_default : stValid .default := trivial

theorem tokStep_valid (st : TokState) (s : List Char) (hv : stValid st) :
    stValid (tokStep st s).2.1 := by
  cases s with
  | nil => simp only [tokStep]; exact hv
  | cons c t =>
    cases st with
    | lineComment => by_cases h : c = '\n' <;> simp [tokStep, h, stValid]
    | blockComment level =>
      cases hbe : isLongBracketEnd (c :: t) level <;> simp [tokStep, hbe, stValid]
    | longString level =>
      cases hbe : isLongBracketEnd (c :: t) level <;> simp [tokStep, hbe, stValid]
    | inString delim =>
      simp only [tokStep]
      split
      · exact hv
      · split
        · exact trivial
        · exact hv
    | default =>
      simp only [tokStep]
      split
      · cases hbs : isLongBracketStart (t.drop 1) with
        | some p => cases p; simp [stValid]
        | none => simp [stValid]
      · cases hbs : isLongBracketStart (c :: t) with
        | some p => cases p; simp [stValid]
        | none =>
          simp only
          by_cases hq : c = '"' ∨ c = '\''
          · simp [hq, stValid]
          · simp [hq, stValid]

/-- One step of the scanner relates the consumed input characters to the
emitted output characters. -/
theorem tokStep_charOk (st : TokState) (c : Char) (t : List Char)
    (hv : stValid st) :
    List.Forall₂ charOk ((c :: t).take (tokStep st (c :: t)).2.2)
      (tokStep st (c :: t)).1 := by
  cases st with
  | lineComment =>
    by_cases h : c = '\n' <;>
      simp [tokStep, h, charOk, List.forall₂_cons]
  | blockComment level =>
    cases hbe : isLongBracketEnd (c :: t) level with
    | some len =>
      simp only [tokStep, hbe]
      exact closer_take_charOk hbe
    | none =>
      simp only [tokStep, hbe]
      by_cases h : c = '\n' <;> simp [h, charOk, List.forall₂_cons]
  | longString level =>
    cases hbe : isLongBracketEnd (c :: t) level with
    | some len =>
      simp only [tokStep, hbe]
      exact closer_take_charOk hbe
    | none =>
      simp only [tokStep, hbe]
      by_cases h : c = '\n' <;> simp [h, charOk, List.forall₂_cons]
  | inString delim =>
    simp only [tokStep]
    by_cases hesc : c = '\\' ∧ t ≠ []
    · rw [if_pos hesc]
      obtain ⟨hc, ht⟩ := hesc
      subst hc
      cases t with
      | nil => exact absurd rfl ht
      | cons r0 t2 =>
        by_cases h0 : r0 = '\n' <;>
          simp [h0, charOk, List.forall₂_cons]
    · rw [if_neg hesc]
      by_cases hd : c = delim
      · have hdn : delim ≠ '\n' := by rcases hv with rfl | rfl <;> decide
        simp [hd, charOk, List.forall₂_cons, hdn]
      · simp only [if_neg hd]
        by_cases h : c = '\n' <;> simp [h, charOk, List.forall₂_cons]
  | default =>
    simp only [tokStep]
    by_cases hdd : c = '-' ∧ t.head? = some '-'
    · rw [if_pos hdd]
      obtain ⟨hc, ht⟩ := hdd
      cases t with
      | nil => simp at ht
      | cons t0 t2 =>
        simp only [List.head?_cons, Option.some.injEq] at ht
        cases hbs : isLongBracketStart ((t0 :: t2).drop 1) with
        | some p =>
          cases p with
          | mk len level =>
            simp only
            subst hc
            subst ht
            have hop := opener_take_charOk hbs
            simp only [List.drop_succ_cons, List.drop_zero] at hbs hop
            have : (('-' : Char) :: '-' :: t2).take (2 + len) = '-' :: '-' :: t2.take len := by
              rw [show 2 + len = len + 2 from by omega]
              rfl
            rw [this]
            rw [show (2 + len) = len + 2 from by omega]
            rw [show List.replicate (len + 2) ' ' = ' ' :: ' ' :: List.replicate len ' ' from by
              simp [List.replicate_succ]]
            refine List.Forall₂.cons ⟨Or.inr rfl, by simp⟩ ?_
            refine List.Forall₂.cons ⟨Or.inr rfl, by simp⟩ ?_
            exact hop
        | none =>
          simp only
          subst hc
          subst ht
          simp [charOk, List.forall₂_cons]
    · rw [if_neg hdd]
      cases hbs : isLongBracketStart (c :: t) with
      | some p =>
        cases p with
        | mk len level =>
          simp only
          exact opener_take_charOk hbs
      | none =>
        simp only
        by_cases hq : c = '"' ∨ c = '\''
        · have hcn : c ≠ '\n' := by
            rcases hq with rfl | rfl <;> decide
          simp [hq, charOk, List.forall₂_cons, hcn]
        · simp [hq, charOk, List.forall₂_cons]

/-- Raw and sanitized text are pointwise `charOk`-related. -/
theorem tokGo_charOk (st : TokState) (s : List Char) (hv : stValid st) :
    List.Forall₂ charOk s (tokGo st s) := by
  match s with
  | [] =>
    rw [tokGo_nil]
    exact List.Forall₂.nil
  | c :: t =>
    rw [tokGo_cons]
    have hstep := tokStep_charOk st c t hv
    have hrec :=
      tokGo_charOk (tokStep st (c :: t)).2.1 ((c :: t).drop (tokStep st (c :: t)).2.2)
        (tokStep_valid st (c :: t) hv)
    have hall := forall₂_append hstep hrec
    rwa [List.take_append_drop] at hall
termination_by s.length
decreasing_by
  have := tokStep_pos st c t
  simp only [List.length_drop, List.length_cons]
  omega

/-! ## Line structure of the sanitized text -/

theorem splitLinesJS_ne_nil (s : List Char) : splitLinesJS s ≠ [] := by
  match s with
  | [] => simp [splitLinesJS]
  | c :: t =>
    by_cases hc : c = '\n'
    · subst hc
      rw [splitLinesJS_nl]
      simp
    · by_cases hcr : c = '\r' ∧ t.head? = some '\n'
      · obtain ⟨rfl, hh⟩ := hcr
        cases t with
        | nil => simp at hh
        | cons t0 t2 =>
          simp only [List.head?_cons, Option.some.injEq] at hh
          subst hh
          rw [splitLinesJS_crnl]
          simp
      · rw [splitLinesJS_other c t hc hcr]
        cases splitLinesJS t <;> simp [consHead]

/-- The number of pieces produced by `split(/\r?\n/)` is the number of
newline characters plus one. -/
theorem splitLinesJS_length (s : List Char) :
    (splitLinesJS s).length = s.count '\n' + 1 := by
  match s with
  | [] => simp [splitLinesJS]
  | c :: t =>
    by_cases hc : c = '\n'
    · subst hc
      rw [splitLinesJS_nl]
      simp only [List.length_cons, splitLinesJS_length t, List.count_cons]
      simp
    · by_cases hcr : c = '\r' ∧ t.head? = some '\n'
      · obtain ⟨rfl, hh⟩ := hcr
        cases t with
        | nil => simp at hh
        | cons t0 t2 =>
          simp only [List.head?_cons, Option.some.injEq] at hh
          subst hh
          rw [splitLinesJS_crnl]
          simp only [List.length_cons, splitLinesJS_length t2, List.count_cons]
          simp
      · rw [splitLinesJS_other c t hc hcr]
        have hrec := splitLinesJS_length t
        cases hsp : splitLinesJS t with
        | nil => exact absurd hsp (splitLinesJS_ne_nil t)
        | cons l ls =>
          rw [hsp] at hrec
          simp only [consHead, List.length_cons, List.count_cons] at hrec ⊢
          simp [hc]
          omega
termination_by s.length
decreasing_by
  all_goals simp only [List.length_cons]
  all_goals omega

/-- A `charOk`-related pair has the same newline count. -/
theorem forall₂_count_nl {a b : List Char} (h : List.Forall₂ charOk a b) :
    b.count '\n' = a.count '\n' := by
  induction h with
  | nil => rfl
  | @cons x y l m hx _ ih =>
    simp only [List.count_cons, ih]
    by_cases hxn : x = '\n'
    · simp [hxn, hx.2.mpr hxn]
    · have hyn : y ≠ '\n' := fun hy => hxn (hx.2.mp hy)
      simp [hxn, hyn]

/-- On carriage-return-free text, `charOk`-related lists split into lines of
identical lengths. -/
theorem forall₂_splitLines {a b : List Char} (h : List.Forall₂ charOk a b)
    (hr : '\r' ∉ a) :
    (splitLinesJS b).map List.length = (splitLinesJS a).map List.length := by
  induction h with
  | nil => rfl
  | @cons x y l m hx hrest ih =>
    have hxr : x ≠ '\r' := fun hxx => hr (hxx ▸ List.mem_cons_self x l)
    have hlr : '\r' ∉ l := fun hmem => hr (List.mem_cons_of_mem x hmem)
    have hyr : y ≠ '\r' := by
      rcases hx.1 with rfl | rfl
      · exact hxr
      · decide
    by_cases hxn : x = '\n'
    · have hyn : y = '\n' := hx.2.mpr hxn
      subst hxn
      subst hyn
      rw [splitLinesJS_nl, splitLinesJS_nl]
      simp [ih hlr]
    · have hyn : y ≠ '\n' := fun hy => hxn (hx.2.mp hy)
      rw [splitLinesJS_other x l hxn (fun hh => hxr hh.1),
        splitLinesJS_other y m hyn (fun hh => hyr hh.1)]
      have hihl := ih hlr
      cases ha : splitLinesJS l with
      | nil => exact absurd ha (splitLinesJS_ne_nil l)
      | cons al als =>
        cases hb : splitLinesJS m with
        | nil => exact absurd hb (splitLinesJS_ne_nil m)
        | cons bl bls =>
          rw [ha, hb] at hihl
          simp only [List.map_cons, List.cons.injEq] at hihl
          simp [consHead, hihl.1, hihl.2]

/-! ## Idempotence of the sanitizer -/

/-- In the default state, a head character that triggers none of the masking
branches is copied unchanged. -/
theorem tokGo_default_copy (c : Char) (X : List Char)
    (hdd : ¬(c = '-' ∧ X.head? = some '-'))
    (hbs : isLongBracketStart (c :: X) = none)
    (hq : ¬(c = '"' ∨ c = '\'')) :
    tokGo .default (c :: X) = c :: tokGo .default X := by
  rw [tokGo_cons]
  have hstep : tokStep .default (c :: X) = ([c], .default, 1) := by
    simp only [tokStep, if_neg hdd, hbs]
    rw [if_neg hq]
  rw [hstep]
  simp

/-- Spaces and newlines are inert in the default state. -/
theorem tokGo_default_mask_append : ∀ (out R : List Char),
    (∀ x ∈ out, x = ' ' ∨ x = '\n') →
    tokGo .default (out ++ R) = out ++ tokGo .default R := by
  intro out
  induction out with
  | nil => simp
  | cons o out' ih =>
    intro R h
    have ho := h o (List.mem_cons_self o out')
    have hrest : ∀ x ∈ out', x = ' ' ∨ x = '\n' :=
      fun x hx => h x (List.mem_cons_of_mem o hx)
    rw [List.cons_append]
    have hcopy : tokGo .default (o :: (out' ++ R)) = o :: tokGo .default (out' ++ R) := by
      apply tokGo_default_copy
      · rintro ⟨rfl, -⟩
        rcases ho with h1 | h1 <;> exact absurd h1 (by decide)
      · rcases ho with rfl | rfl <;> simp [isLongBracketStart]
      · rintro (rfl | rfl) <;> rcases ho with h1 | h1 <;> exact absurd h1 (by decide)
    rw [hcopy, ih R hrest]
    simp

/-- A non-space prefix of the sanitized side of a `charOk` pair is literally
present in the raw side as well. -/
theorem forall₂_charOk_front : ∀ (p : List Char) {t R r2 : List Char},
    List.Forall₂ charOk t R → R = p ++ r2 → (∀ x ∈ p, x ≠ ' ') →
    ∃ t2, t = p ++ t2 ∧ List.Forall₂ charOk t2 r2 := by
  intro p
  induction p with
  | nil =>
    intro t R r2 h hR _
    simp only [List.nil_append] at hR ⊢
    exact ⟨t, rfl, hR ▸ h⟩
  | cons q p' ih =>
    intro t R r2 h hR hns
    rw [List.cons_append] at hR
    subst hR
    rcases List.forall₂_cons_right_iff.mp h with ⟨a, l, ha, hrest, rfl⟩
    have hq : q ≠ ' ' := hns q (List.mem_cons_self q p')
    have haq : a = q := by
      rcases ha.1 with h1 | h1
      · exact h1.symm
      · exact absurd h1 hq
    obtain ⟨t2, hl, hrel⟩ :=
      ih hrest rfl (fun x hx => hns x (List.mem_cons_of_mem q hx))
    refine ⟨t2, ?_, hrel⟩
    rw [List.cons_append, hl, haq]

/-- Each scanner step either emits only mask characters (spaces/newlines) or
is the default-state copy step with all masking triggers absent. -/
theorem tokStep_cases (st : TokState) (c : Char) (t : List Char) :
    (∀ x ∈ (tokStep st (c :: t)).1, x = ' ' ∨ x = '\n') ∨
      (st = .default ∧ tokStep st (c :: t) = ([c], .default, 1) ∧
        ¬(c = '-' ∧ t.head? = some '-') ∧ isLongBracketStart (c :: t) = none ∧
        ¬(c = '"' ∨ c = '\'')) := by
  cases st with
  | lineComment =>
    left
    by_cases h : c = '\n' <;> simp [tokStep, h]
  | blockComment level =>
    left
    cases hbe : isLongBracketEnd (c :: t) level with
    | some len =>
      simp only [tokStep, hbe]
      intro x hx
      exact Or.inl (List.eq_of_mem_replicate hx)
    | none =>
      simp only [tokStep, hbe]
      by_cases h : c = '\n' <;> simp [h]
  | longString level =>
    left
    cases hbe : isLongBracketEnd (c :: t) level with
    | some len =>
      simp only [tokStep, hbe]
      intro x hx
      exact Or.inl (List.eq_of_mem_replicate hx)
    | none =>
      simp only [tokStep, hbe]
      by_cases h : c = '\n' <;> simp [h]
  | inString delim =>
    left
    simp only [tokStep]
    by_cases hesc : c = '\\' ∧ t ≠ []
    · rw [if_pos hesc]
      by_cases h0 : t.head? = some '\n' <;> simp [h0]
    · rw [if_neg hesc]
      by_cases hd : c = delim
      · simp [hd]
      · simp only [if_neg hd]
        by_cases h : c = '\n' <;> simp [h]
  | default =>
    by_cases hdd : c = '-' ∧ t.head? = some '-'
    · left
      simp only [tokStep, if_pos hdd]
      cases hbs : isLongBracketStart (t.drop 1) with
      | some p =>
        cases p with
        | mk len level =>
          simp only
          intro x hx
          exact Or.inl (List.eq_of_mem_replicate hx)
      | none => simp
    · cases hbs : isLongBracketStart (c :: t) with
      | some p =>
        left
        cases p with
        | mk len level =>
          simp only [tokStep, if_neg hdd, hbs]
          intro x hx
          exact Or.inl (List.eq_of_mem_replicate hx)
      | none =>
        by_cases hq : c = '"' ∨ c = '\''
        · left
          simp only [tokStep, if_neg hdd, hbs]
          rw [if_pos hq]
          simp
        · right
          refine ⟨rfl, ?_, hdd, ?_, hq⟩
          · simp only [tokStep, if_neg hdd, hbs]
            rw [if_neg hq]
          · first
            | exact hbs
            | rfl

/-- Sanitizing any scanner output is a no-op: the output of `tokGo` contains
no masking trigger, so a second scan copies it verbatim. -/
theorem tokGo_idem (st : TokState) (s : List Char) (hv : stValid st) :
    tokGo .default (tokGo st s) = tokGo st s := by
  match s with
  | [] =>
    rw [tokGo_nil, tokGo_nil]
  | c :: t =>
    rw [tokGo_cons st c t]
    have hv' := tokStep_valid st (c :: t) hv
    have ih :=
      tokGo_idem (tokStep st (c :: t)).2.1 ((c :: t).drop (tokStep st (c :: t)).2.2) hv'
    rcases tokStep_cases st c t with hmask | ⟨hst, hstep, hdd, hbs, hq⟩
    · rw [tokGo_default_mask_append _ _ hmask, ih]
    · rw [hstep] at ih ⊢
      simp only [List.drop_succ_cons, List.drop_zero] at ih ⊢
      have hRrel := tokGo_charOk .default t stValid_default
      have hhead : ∀ d : Char, (tokGo .default t).head? = some d → d ≠ ' ' →
          t.head? = some d := by
        intro d hh hd
        generalize hg : tokGo .default t = R at hRrel hh
        cases hRrel with
        | nil => simp at hh
        | @cons x y l m hxy hrest =>
          simp only [List.head?_cons, Option.some.injEq] at hh ⊢
          subst hh
          rcases hxy.1 with h1 | h1
          · exact h1.symm
          · exact absurd h1 hd
      have hdd2 : ¬(c = '-' ∧ (tokGo .default t).head? = some '-') := by
        rintro ⟨rfl, hh⟩
        exact hdd ⟨rfl, hhead '-' hh (by decide)⟩
      have hbs2 : isLongBracketStart (c :: tokGo .default t) = none := by
        cases hcase : isLongBracketStart (c :: tokGo .default t) with
        | none => rfl
        | some p =>
          exfalso
          cases p with
          | mk len lvl =>
            obtain ⟨hlen, r2, hshape⟩ := isLongBracketStart_shape hcase
            rw [List.cons_append] at hshape
            have hc : c = '[' := by
              have := congrArg List.head? hshape
              simpa using this
            have hR : tokGo .default t = List.replicate lvl '=' ++ '[' :: r2 := by
              have := congrArg List.tail hshape
              simpa using this
            have hR2 : tokGo .default t = (List.replicate lvl '=' ++ ['[']) ++ r2 := by
              rw [hR]
              simp
            have hns : ∀ x ∈ List.replicate lvl '=' ++ ['['], x ≠ ' ' := by
              intro x hx
              have hx2 : x = '=' ∨ x = '[' := by
                simp only [List.mem_append, List.mem_replicate,
                  List.mem_singleton] at hx
                tauto
              rcases hx2 with rfl | rfl <;> decide
            obtain ⟨t2, ht2, -⟩ := forall₂_charOk_front _ hRrel hR2 hns
            have : isLongBracketStart (c :: t) = some (lvl + 2, lvl) := by
              rw [hc, ht2]
              have := isLongBracketStart_of_shape lvl t2
              rw [List.cons_append] at this
              simpa using this
            rw [this] at hbs
            exact absurd hbs (by simp)
      rw [List.singleton_append, tokGo_default_copy c (tokGo .default t) hdd2 hbs2 hq, ih]
termination_by s.length
decreasing_by
  have := tokStep_pos st c t
  simp only [List.length_drop, List.length_cons]
  omega

/-! ## Substring-occurrence helpers for the long-string lemmas -/

theorem hasSubstr_of_isPrefixOf {l sub : List Char} (h : sub.isPrefixOf l = true) :
    hasSubstr l sub = true := by
  rw [hasSubstr.eq_def]
  simp [h]

theorem hasSubstr_cons_false {c : Char} {t sub : List Char}
    (h : hasSubstr (c :: t) sub = false) : hasSubstr t sub = false := by
  rw [hasSubstr.eq_def] at h
  simp only at h
  split at h
  · exact absurd h (by simp)
  · exact h

/-- An unterminated level-2 long string masks every remaining character to a
space (newlines preserved): with no `"]==]"` in the rest of the input the
scanner stays in the long-string state to the end. -/
theorem longString_no_close_masks (s : List Char)
    (h : hasSubstr s (']' :: '=' :: '=' :: [']']) = false) :
    ∀ x ∈ tokGo (.longString 2) s, x = ' ' ∨ x = '\n' := by
  match s with
  | [] =>
    rw [tokGo_nil]
    simp
  | c :: t =>
    rw [tokGo_cons]
    have hbe : isLongBracketEnd (c :: t) 2 = none := by
      cases hcase : isLongBracketEnd (c :: t) 2 with
      | none => rfl
      | some len =>
        exfalso
        obtain ⟨hlen, rest2, hshape⟩ := isLongBracketEnd_shape hcase
        have hpre : (']' :: '=' :: '=' :: [']']).isPrefixOf (c :: t) = true := by
          rw [hshape]
          simp [List.isPrefixOf]
        rw [hasSubstr_of_isPrefixOf hpre] at h
        exact absurd h (by simp)
    simp only [tokStep, hbe]
    intro x hx
    rcases List.mem_append.mp hx with hx1 | hx2
    · simp only [List.mem_singleton] at hx1
      subst hx1
      by_cases hc : c = '\n' <;> simp [hc]
    · have ht : hasSubstr t (']' :: '=' :: '=' :: [']']) = false := hasSubstr_cons_false h
      have := longString_no_close_masks t ht
      simp only [List.drop_succ_cons, List.drop_zero] at hx2
      exact this x hx2
termination_by s.length
decreasing_by
  simp only [List.length_cons]
  omega

/-! ## Claim theorems for the sanitizer -/

/-- C10: sanitization never inserts, deletes, or substitutes non-space
content.  For every input text, `tokenizeLua` preserves the total length, at
every position the output character is either the input character at that
position or a space, and a position holds a newline in the output exactly when
the input does. -/
theorem sanitize_pointwise_shape (s : String) :
    (tokenizeLua s).length = s.length ∧
      ∀ i : Nat, i < s.data.length →
        ((tokenizeLua s).data.getD i ' ' = s.data.getD i ' ' ∨
          (tokenizeLua s).data.getD i ' ' = ' ') ∧
        ((tokenizeLua s).data.getD i ' ' = '\n' ↔ s.data.getD i ' ' = '\n') := by
  have hrel : List.Forall₂ charOk s.data (tokenizeLua s).data := by
    rw [tokenizeLua_data]
    exact tokGo_charOk .default s.data stValid_default
  have hlen := hrel.length_eq
  refine ⟨?_, ?_⟩
  · show (tokenizeLua s).data.length = s.data.length
    omega
  · intro i hi
    have hi2 : i < (tokenizeLua s).data.length := by omega
    have hget := hrel.get hi hi2
    rw [List.getD_eq_getElem s.data ' ' hi, List.getD_eq_getElem (tokenizeLua s).data ' ' hi2]
    rw [List.get_eq_getElem, List.get_eq_getElem] at hget
    exact hget

theorem sanitize_pointwise_shape_witness :
    0 < ("ab").data.length ∧
      (((tokenizeLua "ab").data.getD 0 ' ' = ("ab").data.getD 0 ' ' ∨
        (tokenizeLua "ab").data.getD 0 ' ' = ' ') ∧
       ((tokenizeLua "ab").data.getD 0 ' ' = '\n' ↔ ("ab").data.getD 0 ' ' = '\n')) :=
  ⟨by decide, (sanitize_pointwise_shape "ab").2 0 (by decide)⟩

/-- C4: sanitization is idempotent: `sanitize(sanitize(text)) = sanitize(text)`
for every input text. -/
theorem sanitize_idempotent (s : String) :
    tokenizeLua (tokenizeLua s) = tokenizeLua s := by
  apply String.ext
  rw [tokenizeLua_data (tokenizeLua s), tokenizeLua_data s]
  exact tokGo_idem .default s.data stValid_default

/-- C2 counterexample: on the input `"-- a\r\nb"` (a line comment whose line
ends in CRLF) the masked `'\r'` becomes a space, so the first sanitized line
(split on `\r?\n`) has length 5 while the first raw line has length 4: the
per-line length invariant fails. -/
theorem sanitize_per_line_length_cex :
    (splitLinesJS (tokenizeLua "-- a\r\nb").data).map List.length = [5, 1] ∧
      (splitLinesJS ("-- a\r\nb" : String).data).map List.length = [4, 1] ∧
      (splitLinesJS (tokenizeLua "-- a\r\nb").data).map List.length ≠
        (splitLinesJS ("-- a\r\nb" : String).data).map List.length := by
  refine ⟨?_, ?_, ?_⟩ <;> decide

/-- C2 (amended): for every input text, `sanitize(text)` splits (on `\r?\n`)
into the same number of lines as the input; and for inputs containing no
carriage-return character the per-line lengths also agree.  (A CR that sits
inside a comment or string directly before the LF is masked to a space, which
lengthens that sanitized line by one; the counterexample forces the CR-free
restriction.) -/
theorem sanitize_line_structure (s : String) :
    (splitLinesJS (tokenizeLua s).data).length = (splitLinesJS s.data).length ∧
      ('\r' ∉ s.data →
        (splitLinesJS (tokenizeLua s).data).map List.length =
          (splitLinesJS s.data).map List.length) := by
  have hrel : List.Forall₂ charOk s.data (tokenizeLua s).data := by
    rw [tokenizeLua_data]
    exact tokGo_charOk .default s.data stValid_default
  refine ⟨?_, fun hr => forall₂_splitLines hrel hr⟩
  rw [splitLinesJS_length, splitLinesJS_length, forall₂_count_nl hrel]

theorem sanitize_line_structure_witness :
    '\r' ∉ ("a\nb -- c" : String).data ∧
      (splitLinesJS (tokenizeLua "a\nb -- c").data).map List.length =
        (splitLinesJS ("a\nb -- c" : String).data).map List.length :=
  ⟨by decide, (sanitize_line_structure "a\nb -- c").2 (by decide)⟩

/-- C5: a long-bracket region opened at level 2 is terminated only by a
close bracket of exactly level 2.  A recognized closer at level `N` is
literally `']'`, `N` equals signs, `']'`; the interior `"]=]"` is not a
level-2 closer while `"]==]"` is; on a concrete input the level-2 long string
masks across an interior `"]=]"` up to the first `"]==]"`; and with no
`"]==]"` present, masking continues to the end of input. -/
theorem long_bracket_level_discipline :
    (∀ (t : List Char) (level len : Nat), isLongBracketEnd t level = some len →
        len = level + 2 ∧
          ∃ rest2, t = ']' :: List.replicate level '=' ++ ']' :: rest2) ∧
      (∀ rest : List Char, isLongBracketEnd (']' :: '=' :: ']' :: rest) 2 = none) ∧
      (∀ rest : List Char,
        isLongBracketEnd (']' :: '=' :: '=' :: ']' :: rest) 2 = some 4) ∧
      tokenizeLua "x = [==[ a ]=] b ]==] y" = "x =                   y" ∧
      (∀ s : List Char, hasSubstr s (']' :: '=' :: '=' :: [']']) = false →
        ∀ x ∈ tokGo (.longString 2) s, x = ' ' ∨ x = '\n') := by
  refine ⟨fun t level len h => isLongBracketEnd_shape h, ?_, ?_, by decide,
    longString_no_close_masks⟩
  · intro rest
    simp [isLongBracketEnd, eqScan]
  · intro rest
    have := isLongBracketEnd_of_shape 2 rest
    simpa using this

theorem long_bracket_level_discipline_witness :
    (isLongBracketEnd ("]==]x" : String).data 2 = some 4 ∧
        4 = 2 + 2 ∧
        ∃ rest2, ("]==]x" : String).data =
          ']' :: List.replicate 2 '=' ++ ']' :: rest2) ∧
      (hasSubstr ("ab" : String).data (']' :: '=' :: '=' :: [']']) = false ∧
        ∀ x ∈ tokGo (.longString 2) ("ab" : String).data, x = ' ' ∨ x = '\n') := by
  refine ⟨⟨by decide, ?_, ?_⟩, by decide, ?_⟩
  · exact (long_bracket_level_discipline.1 ("]==]x" : String).data 2 4 (by decide)).1
  · exact (long_bracket_level_discipline.1 ("]==]x" : String).data 2 4 (by decide)).2
  · intro x hx
    exact long_bracket_level_discipline.2.2.2.2 ("ab" : String).data (by decide) x hx

/-- C9: the sanitizer terminates on every finite input: every loop iteration
consumes at least one character, the equals scan of the closer check examines
at most `level + 1` equals signs, and an unmatched opener simply masks to the
end of the input. -/
theorem sanitizer_termination_bounds :
    (∀ (st : TokState) (s : List Char), s ≠ [] → 1 ≤ (tokStep st s).2.2) ∧
      (∀ (l : List Char) (level : Nat), eqScan l level 0 ≤ level + 1) ∧
      tokenizeLua "[==[abc" = "       " := by
  refine ⟨?_, ?_, by decide⟩
  · intro st s hs
    cases s with
    | nil => exact absurd rfl hs
    | cons c t => exact tokStep_pos st c t
  · intro l level
    have := eqScan_le l level 0
    omega

theorem sanitizer_termination_bounds_witness :
    (("x" : String).data ≠ [] ∧ 1 ≤ (tokStep .default ("x" : String).data).2.2) ∧
      eqScan ("==" : String).data 0 0 ≤ 0 + 1 :=
  ⟨⟨by decide, sanitizer_termination_bounds.1 .default ("x" : String).data (by decide)⟩,
    sanitizer_termination_bounds.2.1 ("==" : String).data 0⟩

/-! ## Diagnostics data model (`vscode.Diagnostic` as used by the passes) -/

/-- `vscode.DiagnosticSeverity`. -/
inductive Sev where
  | error | warning | information | hint
  deriving Repr, DecidableEq

/-- A published diagnostic: range (line/column pairs), severity, message and
stable code.  Columns are integers because ranges built from `indexOf` can in
principle carry `-1`. -/
structure Diag where
  startLine : Nat
  startCol : Int
  endLine : Nat
  endCol : Int
  severity : Sev
  message : String
  code : String
  deriving Repr, DecidableEq

/-- The scan context built by `createLuaDiagnosticContext`. -/
structure LuaDiagnosticContext where
  text : List Char
  lines : List (List Char)
  sanitizedText : List Char
  sanitizedLines : List (List Char)
  deriving Repr

/-- `createLuaDiagnosticContext` (the document handle is replaced by its
text). -/
def createLuaDiagnosticContext (text : String) : LuaDiagnosticContext :=
  { text := text.data
    lines := splitLinesJS text.data
    sanitizedText := (tokenizeLua text).data
    sanitizedLines := splitLinesJS (tokenizeLua text).data }

/-! ## Embedded JS regex matchers

Each definition below embeds one regex literal of the source.  Greedy
quantifiers are embedded as longest-first searches (`tryLens` counts a
repetition down from the longest possible run), mirroring the backtracking
order of the JS engine; a word boundary `\b` before an identifier class is
the condition that the previous character is absent or not a word character.
-/

/-- Try repetition counts `n, n-1, …, 1` (greedy backtracking order). -/
def tryLens (f : Nat → Option α) : Nat → Option α
  | 0 => none
  | n + 1 =>
    match f (n + 1) with
    | some r => some r
    | none => tryLens f n

/-- Length of the maximal run of class `p` at the head. -/
def runLen (p : Char → Bool) : List Char → Nat
  | [] => 0
  | c :: t => if p c then runLen p t + 1 else 0

/-- `\b` on the left of a word character: previous character absent or
non-word. -/
def prevNonWord : Option Char → Bool
  | none => true
  | some c => !wordChar c

/-- `\b` on the right of a word character: next character absent or
non-word. -/
def wordBoundaryAfter (l : List Char) : Bool :=
  match l.head? with
  | none => true
  | some c => !wordChar c

/-- `/\bwhile\s+.+\s+do\b/` at one position (left boundary checked by the
caller): the returned value is the match length. -/
def matchWhileDoAt (l : List Char) : Option Nat :=
  if ("while".data).isPrefixOf l then
    let l1 := l.drop 5
    tryLens (fun n1 =>
      let l2 := l1.drop n1
      tryLens (fun n2 =>
        let l3 := l2.drop n2
        tryLens (fun n3 =>
          let l4 := l3.drop n3
          if ("do".data).isPrefixOf l4 && wordBoundaryAfter (l4.drop 2) then
            some (5 + n1 + n2 + n3 + 2)
          else none) (runLen jsWs l3)) (runLen dotChar l2)) (runLen jsWs l1)
  else none

/-- Leftmost match of `/\bwhile\s+.+\s+do\b/`: `(index, length)`. -/
def findWhileDoAux : Option Char → Nat → List Char → Option (Nat × Nat)
  | _, _, [] => none
  | prev, i, c :: t =>
    match (if prevNonWord prev then matchWhileDoAt (c :: t) else none) with
    | some len => some (i, len)
    | none => findWhileDoAux (some c) (i + 1) t

def findWhileDo (l : List Char) : Option (Nat × Nat) :=
  findWhileDoAux none 0 l

/-- `\s*\(` after a candidate callee name: maximal whitespace skip, then a
literal `'('`. -/
def lparenAfterWs (l : List Char) : Bool :=
  (l.drop (runLen jsWs l)).head? == some '('

/-- `/\b(Wait|Citizen\.Wait)\s*\(/` at one position. -/
def waitCallAt (l : List Char) : Bool :=
  (("Wait".data).isPrefixOf l && lparenAfterWs (l.drop 4)) ||
    (("Citizen.Wait".data).isPrefixOf l && lparenAfterWs (l.drop 12))

/-- `test()` of `/\b(Wait|Citizen\.Wait)\s*\(/`. -/
def hasWaitCallAux : Option Char → List Char → Bool
  | _, [] => false
  | prev, c :: t => (prevNonWord prev && waitCallAt (c :: t)) || hasWaitCallAux (some c) t

def hasWaitCall (l : List Char) : Bool :=
  hasWaitCallAux none l

/-- Maximal `[a-zA-Z_][a-zA-Z0-9_]*` run at the head (`none` when the head is
not an identifier start). -/
def identMax : List Char → Option Nat
  | c :: t => if identStart c then some (1 + runLen wordChar t) else none
  | [] => none

/-- `([a-zA-Z_][a-zA-Z0-9_]*)\s*\(` at one position: captured name and total
match length (greedy identifier, backtracked longest-first). -/
def identCallAt (l : List Char) : Option (List Char × Nat) :=
  match identMax l with
  | none => none
  | some m =>
    tryLens (fun n =>
      let rest := l.drop n
      let w := runLen jsWs rest
      if (rest.drop w).head? == some '(' then some (l.take n, n + w + 1) else none) m

/-- The `exec` loop of the global regex `/\b([a-zA-Z_][a-zA-Z0-9_]*)\s*\(/g`:
all matches with their indices; after a match the scan resumes past the
consumed `'('`.  The fuel is the string length, an upper bound on the number
of iterations since every iteration advances the position. -/
def execCallsF : Nat → Option Char → Nat → List Char → List (List Char × Nat)
  | 0, _, _, _ => []
  | _ + 1, _, _, [] => []
  | fuel + 1, prev, i, c :: t =>
    match (if prevNonWord prev then identCallAt (c :: t) else none) with
    | some (name, len) =>
      (name, i) :: execCallsF fuel (some '(') (i + len) ((c :: t).drop len)
    | none => execCallsF fuel (some c) (i + 1) t

def execCalls (l : List Char) : List (List Char × Nat) :=
  execCallsF l.length none 0 l

/-- `ident\s*` then a required character (used for `\s*\(` and `\s*=`). -/
def identThenChar (l : List Char) (needed : Char) : Option (List Char) :=
  match identMax l with
  | none => none
  | some m =>
    tryLens (fun n =>
      let rest := l.drop n
      if (rest.drop (runLen jsWs rest)).head? == some needed then some (l.take n)
      else none) m

/-- `/local\s+function\s+([a-zA-Z_][a-zA-Z0-9_]*)\s*\(/` at one position:
the captured function name. -/
def matchLocalFunctionDeclAt (l : List Char) : Option (List Char) :=
  if ("local".data).isPrefixOf l then
    tryLens (fun n1 =>
      let l1 := (l.drop 5).drop n1
      if ("function".data).isPrefixOf l1 then
        tryLens (fun n2 => identThenChar ((l1.drop 8).drop n2) '(')
          (runLen jsWs (l1.drop 8))
      else none) (runLen jsWs (l.drop 5))
  else none

/-- Unanchored search for the local-function declaration pattern: the first
match's captured name. -/
def findLocalFunctionDecl : List Char → Option (List Char)
  | [] => none
  | c :: t =>
    match matchLocalFunctionDeclAt (c :: t) with
    | some name => some name
    | none => findLocalFunctionDecl t

/-- `/^([a-zA-Z_][a-zA-Z0-9_]*)\s*=/` on a trimmed line: the captured
identifier. -/
def assignIdent (trimmed : List Char) : Option (List Char) :=
  identThenChar trimmed '='

/-- `/^[a-zA-Z_][a-zA-Z0-9_]*\.[a-zA-Z_][a-zA-Z0-9_]*/.test`: identifier,
dot, identifier at the start of the line. -/
def dottedAccessTest (l : List Char) : Bool :=
  match identMax l with
  | none => false
  | some m =>
    (tryLens (fun n =>
      match l.drop n with
      | '.' :: d :: _ => if identStart d then some () else none
      | _ => none) m).isSome

/-- The greedy group `([a-zA-Z_][a-zA-Z0-9_]*(?:\s*,\s*[a-zA-Z_][a-zA-Z0-9_]*)*)`
after `^local\s+`: length of the matched variable list.  The fuel is the
remaining string length (each comma group consumes at least one character). -/
def identListMoreF : Nat → List Char → Nat
  | 0, _ => 0
  | fuel + 1, l =>
    let w1 := runLen jsWs l
    match (l.drop w1).head? with
    | some ',' =>
      let l2 := (l.drop w1).drop 1
      let w2 := runLen jsWs l2
      match identMax (l2.drop w2) with
      | some n => w1 + 1 + w2 + n + identListMoreF fuel (((l2.drop w2)).drop n)
      | none => 0
    | _ => 0

/-- `/^local\s+(ident(?:\s*,\s*ident)*)/` on a trimmed line: the captured
group-1 substring. -/
def localDeclVars (trimmed : List Char) : Option (List Char) :=
  if ("local".data).isPrefixOf trimmed then
    tryLens (fun n1 =>
      let l1 := (trimmed.drop 5).drop n1
      match identMax l1 with
      | some n => some (l1.take (n + identListMoreF l1.length (l1.drop n)))
      | none => none) (runLen jsWs (trimmed.drop 5))
  else none

/-- `v.replace(/\s*=.*/, '')`: drop everything from the leftmost position at
which optional whitespace is followed by `'='`. -/
def stripEqTailAux : List Char → Option Nat
  | [] => none
  | c :: t =>
    if ((c :: t).drop (runLen jsWs (c :: t))).head? == some '=' then some 0
    else
      match stripEqTailAux t with
      | some p => some (p + 1)
      | none => none

def stripEqTail (v : List Char) : List Char :=
  match stripEqTailAux v with
  | some p => v.take p
  | none => v

/-- `/^[a-zA-Z_][a-zA-Z0-9_]*$/.test`. -/
def isIdent (v : List Char) : Bool :=
  match v with
  | c :: t => identStart c && t.all wordChar
  | [] => false

/-- JS `String.prototype.split(sep)` for a single-character separator. -/
def splitOnChar (sep : Char) : List Char → List (List Char)
  | [] => [[]]
  | c :: t =>
    if c = sep then [] :: splitOnChar sep t else consHead c (splitOnChar sep t)

/-! ## Block matcher and diagnostic passes -/

/-- The scan loop of `findBlockEnd`, iterating over the lines after the
opener with the current nesting depth. -/
def findBlockEndAux (startKeyword endKeyword : List Char) :
    Nat → Nat → List (List Char) → Option Nat
  | _, _, [] => none
  | depth, i, line :: rest =>
    let tl := jsTrim line
    if tl.isEmpty then findBlockEndAux startKeyword endKeyword depth (i + 1) rest
    else
      let d1 := if hasSubstr tl startKeyword then depth + 1 else depth
      if hasSubstr tl endKeyword then
        if d1 - 1 = 0 then some i
        else findBlockEndAux startKeyword endKeyword (d1 - 1) (i + 1) rest
      else findBlockEndAux startKeyword endKeyword d1 (i + 1) rest

/-- `findBlockEnd(sanitizedLines, startIndex, startKeyword, endKeyword)`
(`none`-valued instead of `-1`). -/
def findBlockEnd (sanitizedLines : List (List Char)) (startIndex : Nat)
    (startKeyword endKeyword : List Char) : Option Nat :=
  findBlockEndAux startKeyword endKeyword 1 (startIndex + 1)
    (sanitizedLines.drop (startIndex + 1))

/-- `checkWhileLoops`. -/
def checkWhileLoops (ctx : LuaDiagnosticContext) : List Diag :=
  ctx.sanitizedLines.enum.filterMap fun p =>
    let lineIndex := p.1
    let sanitizedLine := p.2
    if (jsTrim sanitizedLine).isEmpty then none
    else
      match findWhileDo sanitizedLine with
      | none => none
      | some (idx, len) =>
        match findBlockEnd ctx.sanitizedLines lineIndex ("while".data) ("end".data) with
        | none => none
        | some whileBlockEnd =>
          let inner := (ctx.sanitizedLines.drop (lineIndex + 1)).take
            (whileBlockEnd - (lineIndex + 1))
          if inner.any hasWaitCall then none
          else
            some { startLine := lineIndex, startCol := (idx : Int),
                   endLine := lineIndex, endCol := Int.ofNat (idx + len),
                   severity := .warning,
                   message := "While loop without Wait() detected. Possible server freeze detected!",
                   code := "fivem-while-no-wait" }

/-- `checkCitizenPatterns` (note: it scans the raw `lines`, not the
sanitized ones). -/
def checkCitizenPatterns (ctx : LuaDiagnosticContext) : List Diag :=
  ctx.lines.enum.flatMap fun p =>
    let lineIndex := p.1
    let line := p.2
    (if hasSubstr line ("Citizen.CreateThread".data) then
      [{ startLine := lineIndex, startCol := jsIndexOf line ("Citizen.CreateThread".data),
         endLine := lineIndex,
         endCol := jsIndexOf line ("Citizen.CreateThread".data) + 20,
         severity := .information,
         message := "Use CreateThread instead of Citizen.CreateThread.",
         code := "fivem-citizen-create-thread" }]
    else []) ++
    (if hasSubstr line ("Citizen.Wait".data) then
      [{ startLine := lineIndex, startCol := jsIndexOf line ("Citizen.Wait".data),
         endLine := lineIndex,
         endCol := jsIndexOf line ("Citizen.Wait".data) + 12,
         severity := .information,
         message := "Use Wait instead of Citizen.Wait.",
         code := "fivem-citizen-wait" }]
    else [])

/-- JS `Map.set`: update in place when the key is present, append
otherwise. -/
def mapSet [BEq κ] (m : List (κ × α)) (k : κ) (v : α) : List (κ × α) :=
  match m with
  | [] => [(k, v)]
  | (k2, v2) :: rest =>
    if k2 == k then (k, v) :: rest else (k2, v2) :: mapSet rest k v

/-- `checkLocalFunctionOrder` (it scans the raw `lines`; only lines whose
trimmed text starts with `--` are skipped in the call pass). -/
def checkLocalFunctionOrder (ctx : LuaDiagnosticContext) : List Diag :=
  let localFunctionDeclarations : List (List Char × Nat) :=
    ctx.lines.enum.foldl (fun m p =>
      match findLocalFunctionDecl p.2 with
      | some name => mapSet m name p.1
      | none => m) []
  let functionCalls : List (List Char × Nat × Nat) :=
    ctx.lines.enum.flatMap fun p =>
      let lineIndex := p.1
      let line := p.2
      if ("--".data).isPrefixOf (jsTrim line) then []
      else if (findLocalFunctionDecl line).isSome then []
      else
        (execCalls line).filterMap fun q =>
          if (localFunctionDeclarations.lookup q.1).isSome then
            some (q.1, lineIndex, q.2)
          else none
  functionCalls.filterMap fun q =>
    let name : List Char := q.1
    let callLine : Nat := q.2.1
    let column : Nat := q.2.2
    match localFunctionDeclarations.lookup name with
    | some declarationLine =>
      if callLine < declarationLine then
        some { startLine := callLine, startCol := (column : Int),
               endLine := callLine, endCol := Int.ofNat (column + name.length),
               severity := .error,
               message := "Local function '" ++ ⟨name⟩ ++
                 "' is used before it's declared (declared on line " ++
                 toString (declarationLine + 1) ++ "). This will cause a runtime error.",
               code := "lua-function-order-error" }
      else none
    | none => none

/-- The fixed exception list of `checkGlobalVariables`. -/
def globalPatterns : List (List Char) :=
  ["Config".data, "exports".data, "RegisterNetEvent".data, "RegisterServerEvent".data,
    "AddEventHandler".data, "TriggerEvent".data, "TriggerServerEvent".data,
    "TriggerClientEvent".data]

/-- Loop state of `checkGlobalVariables`. -/
structure GVAcc where
  locals : List (List Char)
  tableDepth : Nat
  functionDepth : Nat
  diags : List Diag

/-- One iteration of the `checkGlobalVariables` loop. -/
def gvStep (acc : GVAcc) (lineIndex : Nat) (line sanitizedLine : List Char) : GVAcc :=
  let trimmed := jsTrim sanitizedLine
  if trimmed.isEmpty then acc
  else
    let tableDepth := acc.tableDepth + trimmed.count '{' - trimmed.count '}'
    let functionDepth :=
      if hasSubstr trimmed ("function".data) && !hasSubstr trimmed ("end".data) then
        acc.functionDepth + 1
      else if hasSubstr trimmed ("end".data) && !hasSubstr trimmed ("function".data) then
        acc.functionDepth - 1
      else acc.functionDepth
    let locals :=
      match localDeclVars trimmed with
      | some group1 =>
        (((splitOnChar ',' group1).map (fun v => stripEqTail (jsTrim v))).filter
          (fun v => !v.isEmpty && isIdent v)).foldl
            (fun ls v => if ls.contains v then ls else ls ++ [v]) acc.locals
      | none => acc.locals
    if tableDepth > 0 || functionDepth > 0 then
      { acc with locals := locals, tableDepth := tableDepth, functionDepth := functionDepth }
    else
      let diags :=
        match assignIdent trimmed with
        | some name =>
          if !("local ".data).isPrefixOf trimmed && !locals.contains name &&
              !globalPatterns.contains name &&
              !hasSubstr trimmed ("function".data) && !trimmed.contains '{' &&
              !trimmed.contains '}' && !dottedAccessTest trimmed then
            acc.diags ++
              [{ startLine := lineIndex, startCol := jsIndexOf line name,
                 endLine := lineIndex,
                 endCol := jsIndexOf line name + (name.length : Int),
                 severity := .information,
                 message := "Potential global variable '" ++ ⟨name⟩ ++
                   "' detected. Consider using 'local'.",
                 code := "fivem-global-variable" }]
          else acc.diags
        | none => acc.diags
      { locals := locals, tableDepth := tableDepth, functionDepth := functionDepth,
        diags := diags }

/-- `checkGlobalVariables`. -/
def checkGlobalVariables (ctx : LuaDiagnosticContext) : List Diag :=
  ((ctx.lines.zip ctx.sanitizedLines).enum.foldl
    (fun acc p => gvStep acc p.1 p.2.1 p.2.2)
    { locals := [], tableDepth := 0, functionDepth := 0, diags := [] }).diags

/-! ## Claim theorems for the diagnostic passes -/

/-- C6: on `"while true do\n  DoWork()\nend"` the while-loop pass emits
exactly one Warning with code `fivem-while-no-wait` anchored at the
while-opener span (line 0, columns 0–13); inserting a `Wait(0)` line inside
the block yields zero diagnostics. -/
theorem while_loop_scenario :
    checkWhileLoops (createLuaDiagnosticContext "while true do\n  DoWork()\nend") =
      [{ startLine := 0, startCol := 0, endLine := 0, endCol := 13,
         severity := .warning,
         message := "While loop without Wait() detected. Possible server freeze detected!",
         code := "fivem-while-no-wait" }] ∧
      checkWhileLoops (createLuaDiagnosticContext
        "while true do\n  DoWork()\n  Wait(0)\nend") = [] := by
  constructor <;> decide

/-- C7: on `"local x = 1\ny = 2\nConfig = {}"` the global-variable pass emits
exactly one Information diagnostic, targeting the identifier `y` on line 1
(columns 0–1), and nothing for `x` (declared local) or `Config` (exception
list). -/
theorem global_variable_scenario :
    checkGlobalVariables (createLuaDiagnosticContext "local x = 1\ny = 2\nConfig = {}") =
      [{ startLine := 1, startCol := 0, endLine := 1, endCol := 1,
         severity := .information,
         message := "Potential global variable 'y' detected. Consider using 'local'.",
         code := "fivem-global-variable" }] := by
  decide

/-- C1 counterexample: the Citizen-pattern pass scans raw lines, so
`'Citizen.Wait'` inside a line comment produces one diagnostic (not zero);
the forward-reference pass also scans raw lines, so a call-shaped occurrence
of a declared local function name inside a string literal on a line before
the declaration produces one Error diagnostic (not zero). -/
theorem comment_string_immunity_cex :
    (checkCitizenPatterns (createLuaDiagnosticContext "-- Citizen.Wait")).length = 1 ∧
      (checkLocalFunctionOrder (createLuaDiagnosticContext
        "x = \"helper()\"\nlocal function helper() end")).length = 1 := by
  constructor <;> decide

/-- C1 (amended): passes that match on sanitized lines are immune to flagged
patterns inside strings and comments — the while-loop pass reports nothing
for a `while true do end` inside a string literal — but `checkCitizenPatterns`
and `checkLocalFunctionOrder` scan raw lines: a `Citizen.Wait` inside a
comment yields exactly one diagnostic (code `fivem-citizen-wait`), and a
call-shaped occurrence of a declared local function name inside a string
literal on a line before the declaration yields exactly one Error diagnostic
(code `lua-function-order-error`). -/
theorem comment_string_immunity_amended :
    checkWhileLoops (createLuaDiagnosticContext "x = \"while true do end\"") = [] ∧
      (checkCitizenPatterns (createLuaDiagnosticContext "-- Citizen.Wait")).map
        Diag.code = ["fivem-citizen-wait"] ∧
      (checkLocalFunctionOrder (createLuaDiagnosticContext
          "x = \"helper()\"\nlocal function helper() end")).map
        (fun d => (d.severity, d.code)) = [(.error, "lua-function-order-error")] := by
  refine ⟨?_, ?_, ?_⟩ <;> decide

/-! ## Documentation extractor (`DocumentationParser.parseLuaTypes`) -/

/-- `ParameterDoc`. -/
structure ParameterDoc where
  name : String
  type : String
  description : Option String
  optional : Bool
  deriving Repr, DecidableEq

/-- `ReturnDoc`. -/
structure ReturnDoc where
  type : String
  description : Option String
  deriving Repr, DecidableEq

/-- `FunctionDoc` (the `returns`/`examples` fields are optional in the TS
interface and are absent on the minimal docs built for uncommented
functions). -/
structure FunctionDoc where
  name : String
  source : String
  description : String
  parameters : List ParameterDoc
  returns : Option (List ReturnDoc)
  examples : Option (List String)
  deriving Repr, DecidableEq

/-- The identifier-with-dots class `[a-zA-Z_][a-zA-Z0-9_\.]*` of the
declaration regexes: maximal run length. -/
def identDotChar (c : Char) : Bool :=
  wordChar c || c = '.'

def identDotMax : List Char → Option Nat
  | c :: t => if identStart c then some (1 + runLen identDotChar t) else none
  | [] => none

/-- The lazy group `(.*?)` before a literal `')'`: the shortest run of
non-line-terminator characters up to the first `')'` (`none` when no `')'`
follows on the line). -/
def lazyToParen : List Char → Option (List Char)
  | [] => none
  | c :: t =>
    if c = ')' then some []
    else if c = '\n' ∨ c = '\r' then none
    else (lazyToParen t).map (fun r => c :: r)

/-- Shortest-first search `i, i+1, …` for a lazy quantifier. -/
def tryUp (f : Nat → Option α) : Nat → Nat → Option α
  | 0, i => f i
  | n + 1, i =>
    match f i with
    | some r => some r
    | none => tryUp f n (i + 1)

/-- `\s*=\s*function\s*\((.*?)\)` (the shared tail of the assignment-shaped
declaration regexes): the captured parameter-list text together with the
number of characters the tail consumed (through the closing `')'`). -/
def eqFunctionParenLen (l : List Char) : Option (List Char × Nat) :=
  let w1 := runLen jsWs l
  let l2 := l.drop w1
  match l2.head? with
  | some '=' =>
    let l3 := l2.drop 1
    let w2 := runLen jsWs l3
    let l4 := l3.drop w2
    if ("function".data).isPrefixOf l4 then
      let l5 := l4.drop 8
      let w3 := runLen jsWs l5
      let l6 := l5.drop w3
      match l6.head? with
      | some '(' =>
        (lazyToParen (l6.drop 1)).map (fun ps =>
          (ps, w1 + 1 + w2 + 8 + w3 + 1 + ps.length + 1))
      | _ => none
    else none
  | _ => none

def eqFunctionParen (l : List Char) : Option (List Char) :=
  (eqFunctionParenLen l).map Prod.fst

/-- `/^function\s+([a-zA-Z_][a-zA-Z0-9_\.]*)\s*\((.*?)\)/`. -/
def matchPlainFunction (l : List Char) : Option (List Char × List Char) :=
  if ("function".data).isPrefixOf l then
    tryLens (fun w1 =>
      let l1 := (l.drop 8).drop w1
      match identDotMax l1 with
      | some m =>
        tryLens (fun n =>
          let name := l1.take n
          let l2 := l1.drop n
          let l3 := l2.drop (runLen jsWs l2)
          match l3.head? with
          | some '(' => (lazyToParen (l3.drop 1)).map (fun ps => (name, ps))
          | _ => none) m
      | none => none) (runLen jsWs (l.drop 8))
  else none

/-- `/^([a-zA-Z_][a-zA-Z0-9_\.]*)\s*=\s*function\s*\((.*?)\)/`. -/
def matchAssignFunction (l : List Char) : Option (List Char × List Char) :=
  match identDotMax l with
  | some m =>
    tryLens (fun n =>
      (eqFunctionParen (l.drop n)).map (fun ps => (l.take n, ps))) m
  | none => none

/-- `/^local\s+function\s+([a-zA-Z_][a-zA-Z0-9_\.]*)\s*\((.*?)\)/`. -/
def matchLocalFunction (l : List Char) : Option (List Char × List Char) :=
  if ("local".data).isPrefixOf l then
    tryLens (fun w1 =>
      let l1 := (l.drop 5).drop w1
      if ("function".data).isPrefixOf l1 then
        tryLens (fun w2 =>
          let l2 := (l1.drop 8).drop w2
          match identDotMax l2 with
          | some m =>
            tryLens (fun n =>
              let name := l2.take n
              let l3 := l2.drop n
              let l4 := l3.drop (runLen jsWs l3)
              match l4.head? with
              | some '(' => (lazyToParen (l4.drop 1)).map (fun ps => (name, ps))
              | _ => none) m
          | none => none) (runLen jsWs (l1.drop 8))
      else none) (runLen jsWs (l.drop 5))
  else none

/-- `/^exports\.(.*?)\s*=\s*function\s*\((.*?)\)/`. -/
def matchExportsMember (l : List Char) : Option (List Char × List Char) :=
  if ("exports.".data).isPrefixOf l then
    let l1 := l.drop 8
    tryUp (fun i =>
      if i ≤ runLen dotChar l1 then
        (eqFunctionParen (l1.drop i)).map (fun ps => (l1.take i, ps))
      else none) (runLen dotChar l1) 0
  else none

/-- `/^lib\.([a-zA-Z_][a-zA-Z0-9_\.]*)\s*=\s*function\s*\((.*?)\)/`. -/
def matchLibMember (l : List Char) : Option (List Char × List Char) :=
  if ("lib.".data).isPrefixOf l then
    let l1 := l.drop 4
    match identDotMax l1 with
    | some m =>
      tryLens (fun n =>
        (eqFunctionParen (l1.drop n)).map (fun ps => (l1.take n, ps))) m
    | none => none
  else none

/-- `/@param\s+(\w+)\s+(\w+)\s*(.*)/` at one position: name, type,
description text. -/
def matchParamAt (l : List Char) : Option (List Char × List Char × List Char) :=
  if ("@param".data).isPrefixOf l then
    let l1 := l.drop 6
    tryLens (fun w1 =>
      let l2 := l1.drop w1
      tryLens (fun n1 =>
        let name := l2.take n1
        let l3 := l2.drop n1
        tryLens (fun w2 =>
          let l4 := l3.drop w2
          tryLens (fun n2 =>
            let ty := l4.take n2
            let l5 := l4.drop n2
            some (name, ty, l5.drop (runLen jsWs l5))) (runLen wordChar l4))
          (runLen jsWs l3)) (runLen wordChar l2)) (runLen jsWs l1)
  else none

def findParamAnn : List Char → Option (List Char × List Char × List Char)
  | [] => none
  | c :: t =>
    match matchParamAt (c :: t) with
    | some r => some r
    | none => findParamAnn t

/-- `/@return\s+(\w+)\s*(.*)/` at one position: type, description text. -/
def matchReturnAt (l : List Char) : Option (List Char × List Char) :=
  if ("@return".data).isPrefixOf l then
    let l1 := l.drop 7
    tryLens (fun w1 =>
      let l2 := l1.drop w1
      tryLens (fun n1 =>
        let ty := l2.take n1
        let l3 := l2.drop n1
        some (ty, l3.drop (runLen jsWs l3))) (runLen wordChar l2)) (runLen jsWs l1)
  else none

def findReturnAnn : List Char → Option (List Char × List Char)
  | [] => none
  | c :: t =>
    match matchReturnAt (c :: t) with
    | some r => some r
    | none => findReturnAnn t

/-- `extractParamAnnotations`. -/
def extractParamAnnotations (commentLines : List (List Char)) : List ParameterDoc :=
  commentLines.filterMap fun line =>
    match findParamAnn line with
    | some (name, ty, desc) =>
      some { name := ⟨name⟩, type := ⟨ty⟩, description := some ⟨jsTrim desc⟩,
             optional := false }
    | none => none

/-- `extractReturns`. -/
def extractReturns (commentLines : List (List Char)) : List ReturnDoc :=
  commentLines.filterMap fun line =>
    match findReturnAnn line with
    | some (ty, desc) => some { type := ⟨ty⟩, description := some ⟨jsTrim desc⟩ }
    | none => none

/-- `extractDescription`. -/
def extractDescription (commentLines : List (List Char)) : String :=
  let descLines := commentLines.filter fun line =>
    !("@".data).isPrefixOf line &&
      !hasSubstr (line.map Char.toLower) ("example".data) && line.length > 0
  let joined := jsTrim (List.intercalate [' '] descLines)
  if joined.isEmpty then "No description available" else ⟨joined⟩

/-- One iteration of the `extractExamples` loop: state is
(collected examples, inExample flag, current example text). -/
def exStep (st : List (List Char) × Bool × List Char) (line : List Char) :
    List (List Char) × Bool × List Char :=
  let examples := st.1
  let inExample := st.2.1
  let currentExample := st.2.2
  if hasSubstr (line.map Char.toLower) ("example".data) then
    ((if !currentExample.isEmpty then examples ++ [jsTrim currentExample] else examples),
      true, [])
  else if inExample then
    if ("@".data).isPrefixOf line &&
        !hasSubstr (line.map Char.toLower) ("example".data) then
      ((if !currentExample.isEmpty then examples ++ [jsTrim currentExample] else examples),
        false, [])
    else (examples, true, currentExample ++ line ++ ['\n'])
  else (examples, inExample, currentExample)

/-- `extractExamples`. -/
def extractExamples (commentLines : List (List Char)) : List String :=
  let st := commentLines.foldl exStep ([], false, [])
  ((if !st.2.2.isEmpty then st.1 ++ [jsTrim st.2.2] else st.1)).map (⟨·⟩)

/-- `v.replace('?', '')`: remove the first occurrence only. -/
def removeFirst (c : Char) : List Char → List Char
  | [] => []
  | x :: t => if x = c then t else x :: removeFirst c t

/-- `parseParameters`. -/
def parseParameters (paramString : List Char) (commentLines : List (List Char)) :
    List ParameterDoc :=
  if (jsTrim paramString).isEmpty then []
  else
    let paramAnnotations := extractParamAnnotations commentLines
    (splitOnChar ',' paramString).map fun param =>
      let trimmed := jsTrim param
      let opt := trimmed.contains '?'
      let name : String := ⟨jsTrim (removeFirst '?' trimmed)⟩
      match paramAnnotations.find? (fun p => p.name == name) with
      | some a =>
        { name := name, optional := opt,
          type := if a.type = "" then "any" else a.type,
          description := a.description }
      | none => { name := name, optional := opt, type := "any", description := none }

/-- One iteration of the `parseLuaTypes` line loop: state is
(inComment, pending comment lines, function map). -/
def pltStep (sourceName : String)
    (st : Bool × List (List Char) × List (String × FunctionDoc))
    (rawLine : List Char) : Bool × List (List Char) × List (String × FunctionDoc) :=
  let line := jsTrim rawLine
  let inComment := st.1
  let commentLines := st.2.1
  let functions := st.2.2
  if ("---".data).isPrefixOf line then
    (true, (if !inComment then [] else commentLines) ++ [jsTrim (line.drop 3)],
      functions)
  else
    let functionMatches : List (Option (List Char × List Char)) :=
      [matchPlainFunction line, matchAssignFunction line, matchLocalFunction line,
        matchExportsMember line, matchLibMember line]
    let afterDecl :=
      match functionMatches.findSome? id with
      | some (functionName, params) =>
        let fdoc : FunctionDoc :=
          { name := ⟨functionName⟩, source := sourceName,
            parameters := parseParameters params commentLines,
            description := extractDescription commentLines,
            examples := some (extractExamples commentLines),
            returns := some (extractReturns commentLines) }
        (false, ([] : List (List Char)), mapSet functions (⟨functionName⟩ : String) fdoc)
      | none => (inComment, commentLines, functions)
    let fns2 :=
      if !afterDecl.1 then
        match matchPlainFunction line with
        | some (functionName, params) =>
          let fdoc : FunctionDoc :=
            { name := ⟨functionName⟩, source := sourceName,
              parameters := parseParameters params [],
              description := "Function from " ++ sourceName,
              examples := none, returns := none }
          mapSet afterDecl.2.2 (⟨functionName⟩ : String) fdoc
        | none => afterDecl.2.2
      else afterDecl.2.2
    if afterDecl.1 && !("---".data).isPrefixOf line && line.length > 0 &&
        !(functionMatches.any Option.isSome) then
      (false, [], fns2)
    else (afterDecl.1, afterDecl.2.1, fns2)

/-- `DocumentationParser.parseLuaTypes` (the returned JS `Map` is an
insertion-ordered association list). -/
def parseLuaTypes (content : String) (sourceName : String) :
    List (String × FunctionDoc) :=
  ((splitOnNl content.data).foldl (pltStep sourceName) (false, [], [])).2.2

/-- C3 (code bug): in annotated-definitions mode, the doc block is parsed
correctly (the parameter annotations and the return annotation are all
recovered from the comment lines), and the plain `function add(a, b)`
declaration first consumes it into an annotated FunctionDoc — but the same
line then also matches the "uncommented function" branch, because `inComment`
was just reset to false, and that branch overwrites the map entry with a
minimal FunctionDoc: the stored parameter types are `"any"`, the description
is the default, and the returns field is absent, instead of the annotated
values. -/
theorem annotated_extraction_overwritten :
    extractParamAnnotations
        [("@param a number first value".data), ("@param b number second value".data)] =
      [{ name := "a", type := "number", description := some "first value",
         optional := false },
       { name := "b", type := "number", description := some "second value",
         optional := false }] ∧
    extractReturns [("@return number sum".data)] =
      [{ type := "number", description := some "sum" }] ∧
    (parseLuaTypes
        "--- Adds two numbers\n--- @param a number first value\n--- @param b number second value\n--- @return number sum\nfunction add(a, b)\nend"
        "src").lookup "add" =
      some { name := "add", source := "src",
             description := "Function from src",
             parameters :=
               [{ name := "a", type := "any", description := none, optional := false },
                { name := "b", type := "any", description := none, optional := false }],
             returns := none, examples := none } := by
  refine ⟨?_, ?_, ?_⟩ <;> decide

/-! ## Remaining documentation parsers
(`parseLuaTypesAndFunctions`, `parseLuaFunctions`) -/

/-- `exports\s*\(\s*['"]([^'"]+)['"]\s*,\s*function\s*\((.*?)\)` at one
position (the hybrid parser anchors it with `^`, `parseLuaFunctions` scans it
globally): captured event name and parameter list, with the total match
length. -/
def matchExportsCallLen (l : List Char) : Option ((List Char × List Char) × Nat) :=
  if ("exports".data).isPrefixOf l then
    let l1 := l.drop 7
    let w1 := runLen jsWs l1
    let l2 := l1.drop w1
    match l2.head? with
    | some '(' =>
      let l3 := l2.drop 1
      let w2 := runLen jsWs l3
      let l4 := l3.drop w2
      match l4.head? with
      | some q =>
        if q = '\'' ∨ q = '"' then
          let l5 := l4.drop 1
          let n := runLen (fun c => !(c = '\'' || c = '"')) l5
          if n = 0 then none
          else
            let name := l5.take n
            let l6 := l5.drop n
            match l6.head? with
            | some q2 =>
              if q2 = '\'' ∨ q2 = '"' then
                let l7 := l6.drop 1
                let w3 := runLen jsWs l7
                let l8 := l7.drop w3
                match l8.head? with
                | some ',' =>
                  let l9 := l8.drop 1
                  let w4 := runLen jsWs l9
                  let l10 := l9.drop w4
                  if ("function".data).isPrefixOf l10 then
                    let l11 := l10.drop 8
                    let w5 := runLen jsWs l11
                    let l12 := l11.drop w5
                    match l12.head? with
                    | some '(' =>
                      (lazyToParen (l12.drop 1)).map (fun ps =>
                        ((name, ps),
                          7 + w1 + 1 + w2 + 1 + n + 1 + w3 + 1 + w4 + 8 + w5 + 1 +
                            ps.length + 1))
                    | _ => none
                  else none
                | _ => none
              else none
            | none => none
        else none
      | none => none
    | _ => none
  else none

/-- One iteration of the `parseLuaTypesAndFunctions` (hybrid) line loop. -/
def hybridStep (sourceName : String)
    (st : Bool × List (List Char) × List (String × FunctionDoc))
    (rawLine : List Char) : Bool × List (List Char) × List (String × FunctionDoc) :=
  let line := jsTrim rawLine
  let inComment := st.1
  let currentComment := st.2.1
  let functions := st.2.2
  if ("---".data).isPrefixOf line then
    (true, (if !inComment then [] else currentComment) ++ [jsTrim (line.drop 3)],
      functions)
  else
    let functionPatterns : List (Option (List Char × List Char)) :=
      [matchPlainFunction line, matchAssignFunction line, matchLocalFunction line,
        matchExportsMember line, (matchExportsCallLen line).map Prod.fst]
    match functionPatterns.findSome? id with
    | some (functionName, params) =>
      let fdoc : FunctionDoc :=
        { name := ⟨functionName⟩, source := sourceName,
          parameters := parseParameters params currentComment,
          description :=
            if inComment then extractDescription currentComment
            else "Function from " ++ sourceName,
          examples := some (if inComment then extractExamples currentComment else []),
          returns := some (if inComment then extractReturns currentComment else []) }
      (false, [], mapSet functions (⟨functionName⟩ : String) fdoc)
    | none =>
      if inComment && !("---".data).isPrefixOf line && line.length > 0 &&
          !(functionPatterns.any Option.isSome) then
        (false, [], functions)
      else (inComment, currentComment, functions)

/-- `DocumentationParser.parseLuaTypesAndFunctions`. -/
def parseLuaTypesAndFunctions (content : String) (sourceName : String) :
    List (String × FunctionDoc) :=
  ((splitOnNl content.data).foldl (hybridStep sourceName) (false, [], [])).2.2

/-- `/(?:local\s+)?function\s+([a-zA-Z_][a-zA-Z0-9_\.]*)\s*\((.*?)\)/` at one
position, with total length (the optional `local\s+` prefix is tried first,
greedily). -/
def matchGlobalFunctionLen (l : List Char) : Option ((List Char × List Char) × Nat) :=
  let attempt := fun (off : Nat) =>
    let l0 := l.drop off
    if ("function".data).isPrefixOf l0 then
      tryLens (fun w1 =>
        let l1 := (l0.drop 8).drop w1
        match identDotMax l1 with
        | some m =>
          tryLens (fun n =>
            let name := l1.take n
            let l2 := l1.drop n
            let w2 := runLen jsWs l2
            match (l2.drop w2).head? with
            | some '(' =>
              (lazyToParen ((l2.drop w2).drop 1)).map (fun ps =>
                ((name, ps), off + 8 + w1 + n + w2 + 1 + ps.length + 1))
            | _ => none) m
        | none => none) (runLen jsWs (l0.drop 8))
    else none
  match
    (if ("local".data).isPrefixOf l then
      tryLens (fun wl => attempt (5 + wl)) (runLen jsWs (l.drop 5))
    else none) with
  | some r => some r
  | none => attempt 0

/-- `/([a-zA-Z_][a-zA-Z0-9_\.]*)\s*=\s*function\s*\((.*?)\)/` at one
position, with total length. -/
def matchGlobalAssignLen (l : List Char) : Option ((List Char × List Char) × Nat) :=
  match identDotMax l with
  | some m =>
    tryLens (fun n =>
      (eqFunctionParenLen (l.drop n)).map (fun r => ((l.take n, r.1), n + r.2))) m
  | none => none

/-- `/exports\.([a-zA-Z_][a-zA-Z0-9_\.]*)\s*=\s*function\s*\((.*?)\)/` at one
position, with total length. -/
def matchGlobalExportsLen (l : List Char) : Option ((List Char × List Char) × Nat) :=
  if ("exports.".data).isPrefixOf l then
    let l1 := l.drop 8
    match identDotMax l1 with
    | some m =>
      tryLens (fun n =>
        (eqFunctionParenLen (l1.drop n)).map (fun r => ((l1.take n, r.1), 8 + n + r.2))) m
    | none => none
  else none

/-- The `exec` loop of a global regex: all captures, scanning left to right
and resuming after each match.  The fuel is the string length (every
iteration advances the position by at least one character). -/
def execAllF (m : List Char → Option (α × Nat)) : Nat → List Char → List α
  | 0, _ => []
  | _ + 1, [] => []
  | fuel + 1, c :: t =>
    match m (c :: t) with
    | some (a, len) => a :: execAllF m fuel ((c :: t).drop len)
    | none => execAllF m fuel t

def execAll (m : List Char → Option (α × Nat)) (l : List Char) : List α :=
  execAllF m l.length l

/-- `DocumentationParser.parseLuaFunctions`: delegates to the hybrid parser
when the content contains a `---@` annotation marker anywhere; otherwise runs
the four global declaration scans over the whole content, last match winning
per name. -/
def parseLuaFunctions (content : String) (sourceName : String) :
    List (String × FunctionDoc) :=
  if hasSubstr content.data ("---@".data) then
    parseLuaTypesAndFunctions content sourceName
  else
    let addAll := fun (fns : List (String × FunctionDoc))
        (found : List (List Char × List Char)) =>
      found.foldl (fun fns2 r =>
        mapSet fns2 (⟨r.1⟩ : String)
          { name := ⟨r.1⟩, source := sourceName,
            parameters := parseParameters r.2 [],
            description := "Function from " ++ sourceName,
            returns := none, examples := none }) fns
    addAll (addAll (addAll (addAll [] (execAll matchGlobalFunctionLen content.data))
        (execAll matchGlobalAssignLen content.data))
      (execAll matchExportsCallLen content.data))
      (execAll matchGlobalExportsLen content.data)

/-! ## Catalog parser (`parseNatives`)

`JSON.parse` is a platform builtin; the parsed value (or `none` when parsing
throws) is passed in explicitly.  JSON values standing in string positions
are modelled by their string payload (`jsonStrOr`); a non-string value there
falls back to the default. -/

/-- A parsed JSON value. -/
inductive Json where
  | null : Json
  | bool (b : Bool) : Json
  | num (n : Int) : Json
  | str (s : String) : Json
  | arr (elems : List Json) : Json
  | obj (fields : List (String × Json)) : Json

/-- JS truthiness of a JSON value. -/
def Json.truthy : Json → Bool
  | .null => false
  | .bool b => b
  | .num n => decide (n ≠ 0)
  | .str s => !s.isEmpty
  | .arr _ => true
  | .obj _ => true

/-- Member access `value.key` (undefined on non-objects). -/
def Json.field : Json → String → Option Json
  | .obj fs, k => fs.lookup k
  | _, _ => none

/-- `typeof v === 'object'` (true for objects, arrays, and null). -/
def Json.isObjLike : Json → Bool
  | .obj _ => true
  | .arr _ => true
  | .null => true
  | _ => false

/-- `Object.entries` (array entries are keyed by their decimal index). -/
def Json.entries : Json → List (String × Json)
  | .obj fs => fs
  | .arr xs => xs.enum.map (fun p => (toString p.1, p.2))
  | _ => []

/-- `field || default` for a string-valued field. -/
def jsonStrOr (v : Option Json) (dflt : String) : String :=
  match v with
  | some (.str s) => if s.isEmpty then dflt else s
  | _ => dflt

/-- `field || false` as a boolean (JS truthiness). -/
def jsonTruthyOr (v : Option Json) : Bool :=
  match v with
  | some j => j.truthy
  | none => false

/-- `DocumentationParser.parseNatives`: `parsed` is the result of
`JSON.parse(content)`, `none` when it threw (the outer catch then returns the
empty map). -/
def parseNatives (parsed : Option Json) (sourceName : String) :
    List (String × FunctionDoc) :=
  match parsed with
  | none => []
  | some nativesData =>
    match nativesData with
    | .null => []
    | .obj _ | .arr _ =>
      nativesData.entries.foldl (fun fns p =>
        let functionName := p.1
        let native := p.2
        if !(native.truthy && native.isObjLike) then fns
        else
          let parameters : List ParameterDoc :=
            match native.field "parameters" with
            | some (.arr params) =>
              params.filterMap fun param =>
                if param.truthy && param.isObjLike then
                  some { name := jsonStrOr (param.field "name") "unknown",
                         type := jsonStrOr (param.field "type") "any",
                         description := some (jsonStrOr (param.field "description") ""),
                         optional := jsonTruthyOr (param.field "optional") }
                else none
            | _ => []
          let returns : List ReturnDoc :=
            match native.field "returns" with
            | some ret =>
              if ret.truthy then
                match ret with
                | .arr rs =>
                  rs.filterMap fun r =>
                    if r.truthy && r.isObjLike then
                      some { type := jsonStrOr (r.field "type") "void",
                             description := some (jsonStrOr (r.field "description") "") }
                    else none
                | .obj _ =>
                  [{ type := jsonStrOr (ret.field "type") "void",
                     description := some (jsonStrOr (ret.field "description") "") }]
                | _ => []
              else []
            | none => []
          let baseDescription :=
            jsonStrOr (native.field "description") ("Native function from " ++ sourceName)
          let description :=
            if jsonTruthyOr (native.field "side") then
              baseDescription ++ " (Side: " ++ jsonStrOr (native.field "side") "" ++ ")"
            else baseDescription
          let examples : List String :=
            match native.field "examples" with
            | some (.arr xs) =>
              xs.filterMap fun x =>
                match x with
                | .str s => some s
                | _ => none
            | _ => []
          mapSet fns functionName
            { name := jsonStrOr (native.field "name") functionName,
              source := sourceName, description := description,
              parameters := parameters, returns := some returns,
              examples := some examples }) []
    | _ => []

/-! ## Documentation manager refresh
(`DocumentationManager.refreshDocumentation` /
`downloadAndParseSource`; the network and the workspace file system are
explicit parameters) -/

/-- `DocumentationSource` (the URL is represented by the result of the
`isValidUrl` check, the only use the refresh path makes of it). -/
inductive SourceType where
  | lua_types | lua_functions | lua_mixed | natives
  deriving Repr, DecidableEq

structure DocumentationSource where
  name : String
  urlValid : Bool
  type : SourceType
  enabled : Bool
  deriving Repr, DecidableEq

/-- A cached entry (`DocumentationCache`; the `lastUpdate` wall-clock stamp
is outside the model). -/
structure CacheEntry where
  functions : List (String × FunctionDoc)
  etag : Option String
  lastModified : Option String
  deriving Repr, DecidableEq

/-- The outcome of the fetch for one source: rejection after retries, a
non-ok HTTP status, 304 Not Modified, or a body (with the platform's
`JSON.parse` of it, used only by the natives branch, and the caching
headers). -/
inductive FetchOutcome where
  | networkFailure : FetchOutcome
  | httpError : FetchOutcome
  | notModified : FetchOutcome
  | success (content : String) (contentJson : Option Json)
      (etag : Option String) (lastModified : Option String) : FetchOutcome

/-- The parser dispatch of `downloadAndParseSource`. -/
def parseByType : SourceType → String → Option Json → String →
    List (String × FunctionDoc)
  | .lua_types, content, _, name => parseLuaTypes content name
  | .lua_functions, content, _, name => parseLuaFunctions content name
  | .lua_mixed, content, _, name => parseLuaTypesAndFunctions content name
  | .natives, _, json, name => parseNatives json name

/-- `downloadAndParseSource`: its effect on the in-memory cache.  Every
`throw` lands in the surrounding catch, which only reports; the cache is
written exactly once, after all fallible steps. -/
def downloadAndParseSource (outcome : FetchOutcome) (source : DocumentationSource)
    (cache : List (String × CacheEntry)) : List (String × CacheEntry) :=
  if !source.urlValid then cache
  else
    match outcome with
    | .networkFailure => cache
    | .httpError => cache
    | .notModified => cache
    | .success content json etag lastModified =>
      if content.length > 10 * 1024 * 1024 then cache
      else
        mapSet cache source.name
          { functions := parseByType source.type content json source.name,
            etag := etag, lastModified := lastModified }

/-- `loadLocalTypesFiles`: the auto-discovered workspace `types.lua` files
are passed as (relative path, content) pairs. -/
def loadLocalTypesFiles (locals : List (String × String)) (autoLoad : Bool)
    (cache : List (String × CacheEntry)) : List (String × CacheEntry) :=
  if !autoLoad then cache
  else
    locals.foldl (fun c p =>
      let sourceName := "Local: " ++ p.1
      let functions := parseLuaTypes p.2 sourceName
      if functions.length > 0 then
        mapSet c sourceName { functions := functions, etag := none, lastModified := none }
      else c) cache

/-- `refreshDocumentation`: filter the enabled sources, run
`downloadAndParseSource` for each (the download semaphore serializes their
cache writes; the fold is one such serialization — each write touches only
its own source name), then merge the local `types.lua` files.  With no
enabled source the function warns and returns without touching the cache. -/
def refreshDocumentation (sources : List DocumentationSource)
    (outcomes : String → FetchOutcome) (locals : List (String × String))
    (autoLoad : Bool) (cache : List (String × CacheEntry)) :
    List (String × CacheEntry) :=
  let enabledSources := sources.filter (·.enabled)
  if enabledSources.length = 0 then cache
  else
    loadLocalTypesFiles locals autoLoad
      (enabledSources.foldl
        (fun c source => downloadAndParseSource (outcomes source.name) source c) cache)

/-- `getFunctionDocumentation`: first match in cache insertion order. -/
def getFunctionDocumentation (cache : List (String × CacheEntry))
    (functionName : String) : Option FunctionDoc :=
  cache.findSome? (fun e => e.2.functions.lookup functionName)

/-- `getAllFunctions`: concatenation over the cache in insertion order. -/
def getAllFunctions (cache : List (String × CacheEntry)) : List FunctionDoc :=
  cache.flatMap (fun e => e.2.functions.map Prod.snd)

/-! ## Refresh isolation lemmas -/

theorem lookup_mapSet_self (m : List (String × α)) (k : String) (v : α) :
    (mapSet m k v).lookup k = some v := by
  induction m with
  | nil => simp [mapSet, List.lookup]
  | cons e rest ih =>
    cases e with
    | mk k2 v2 =>
      simp only [mapSet]
      split
      · simp [List.lookup]
      · rename_i hne
        have : (k == k2) = false := by
          cases hbe : k == k2
          · rfl
          · exact absurd (by simpa using (eq_of_beq hbe).symm) (by simpa using hne)
        simp [List.lookup, this, ih]

theorem lookup_mapSet_other (m : List (String × α)) (k k2 : String) (v : α)
    (h : k2 ≠ k) : (mapSet m k v).lookup k2 = m.lookup k2 := by
  have hbe : (k2 == k) = false := beq_eq_false_iff_ne.mpr h
  induction m with
  | nil => simp [mapSet, List.lookup, hbe]
  | cons e rest ih =>
    cases e with
    | mk k3 v3 =>
      simp only [mapSet]
      split
      · rename_i heq
        have hk3 : k3 = k := by simpa using heq
        subst hk3
        simp [List.lookup, hbe]
      · simp [List.lookup, ih]

/-- A download-stage failure for a source: invalid URL, a network failure
after retries, a non-ok HTTP status, or an oversized payload. -/
def failsDownload (source : DocumentationSource) (o : FetchOutcome) : Prop :=
  source.urlValid = false ∨ o = .networkFailure ∨ o = .httpError ∨
    ∃ c j e lm, o = .success c j e lm ∧ c.length > 10 * 1024 * 1024

/-- A failing download leaves the whole cache untouched: every `throw` is
caught after zero cache writes. -/
theorem downloadAndParse_fail_noop (source : DocumentationSource) (o : FetchOutcome)
    (cache : List (String × CacheEntry)) (h : failsDownload source o) :
    downloadAndParseSource o source cache = cache := by
  rcases h with h | h | h | ⟨c, j, e, lm, rfl, hsize⟩
  · simp [downloadAndParseSource, h]
  · subst h
    simp only [downloadAndParseSource]
    split <;> rfl
  · subst h
    simp only [downloadAndParseSource]
    split <;> rfl
  · simp only [downloadAndParseSource, if_pos hsize]
    split <;> rfl

/-- One source's download writes at most its own cache key. -/
theorem downloadAndParse_other (source : DocumentationSource) (o : FetchOutcome)
    (cache : List (String × CacheEntry)) (k : String) (hk : k ≠ source.name) :
    (downloadAndParseSource o source cache).lookup k = cache.lookup k := by
  simp only [downloadAndParseSource]
  split
  · rfl
  · cases o with
    | networkFailure => rfl
    | httpError => rfl
    | notModified => rfl
    | success c j e lm =>
      simp only
      split
      · rfl
      · exact lookup_mapSet_other _ _ _ _ hk

/-- Folding the per-source downloads preserves the entry of a name whose
every carrier fails. -/
theorem fold_downloads_preserves (outcomes : String → FetchOutcome) (k : String) :
    ∀ (L : List DocumentationSource) (cache : List (String × CacheEntry)),
      (∀ s ∈ L, s.name = k → failsDownload s (outcomes s.name)) →
      (L.foldl (fun c source => downloadAndParseSource (outcomes source.name) source c)
          cache).lookup k = cache.lookup k := by
  intro L
  induction L with
  | nil => intro cache _; rfl
  | cons s rest ih =>
    intro cache h
    simp only [List.foldl_cons]
    rw [ih _ (fun s2 hs2 => h s2 (List.mem_cons_of_mem s hs2))]
    by_cases hname : s.name = k
    · rw [downloadAndParse_fail_noop s _ cache (h s (List.mem_cons_self s rest) hname)]
    · exact downloadAndParse_other s _ cache k (fun he => hname he.symm)

/-- Once a name's entry holds the target value and every later carrier of the
name writes that same value, the fold keeps it. -/
theorem fold_downloads_keeps (outcomes : String → FetchOutcome)
    (good : DocumentationSource) (target : CacheEntry)
    (hstep : ∀ c, downloadAndParseSource (outcomes good.name) good c =
      mapSet c good.name target) :
    ∀ (L : List DocumentationSource) (cache : List (String × CacheEntry)),
      cache.lookup good.name = some target →
      (∀ s ∈ L, s.name = good.name → s = good) →
      (L.foldl (fun c source => downloadAndParseSource (outcomes source.name) source c)
          cache).lookup good.name = some target := by
  intro L
  induction L with
  | nil => intro cache hc _; exact hc
  | cons s rest ih =>
    intro cache hc h
    simp only [List.foldl_cons]
    by_cases hname : s.name = good.name
    · have hs : s = good := h s (List.mem_cons_self s rest) hname
      subst hs
      refine ih _ ?_ (fun s2 hs2 => h s2 (List.mem_cons_of_mem _ hs2))
      rw [hstep cache]
      exact lookup_mapSet_self _ _ _
    · refine ih _ ?_ (fun s2 hs2 => h s2 (List.mem_cons_of_mem _ hs2))
      rw [downloadAndParse_other s _ cache good.name (fun he => hname he.symm)]
      exact hc

/-- Folding the downloads over a list containing the successful source sets
its entry to the parsed value (subsequent carriers of the same name are the
same source and rewrite the same value). -/
theorem fold_downloads_sets (outcomes : String → FetchOutcome)
    (good : DocumentationSource) (target : CacheEntry)
    (hstep : ∀ c, downloadAndParseSource (outcomes good.name) good c =
      mapSet c good.name target) :
    ∀ (L : List DocumentationSource) (cache : List (String × CacheEntry)),
      good ∈ L →
      (∀ s ∈ L, s.name = good.name → s = good) →
      (L.foldl (fun c source => downloadAndParseSource (outcomes source.name) source c)
          cache).lookup good.name = some target := by
  intro L
  induction L with
  | nil => intro cache hmem; exact absurd hmem (List.not_mem_nil good)
  | cons s rest ih =>
    intro cache hmem h
    simp only [List.foldl_cons]
    rcases List.mem_cons.mp hmem with hs | hmem2
    · subst hs
      refine fold_downloads_keeps outcomes _ target hstep rest _ ?_
        (fun s2 hs2 => h s2 (List.mem_cons_of_mem _ hs2))
      rw [hstep cache]
      exact lookup_mapSet_self _ _ _
    · exact ih _ hmem2 (fun s2 hs2 => h s2 (List.mem_cons_of_mem _ hs2))

/-- The local-types merge does not touch names that are not local-source
names. -/
theorem loadLocal_other (locals : List (String × String)) (autoLoad : Bool)
    (k : String) :
    ∀ (cache : List (String × CacheEntry)),
      (∀ p ∈ locals, ¬("Local: " ++ p.1 = k)) →
      (loadLocalTypesFiles locals autoLoad cache).lookup k = cache.lookup k := by
  unfold loadLocalTypesFiles
  split
  · intro cache _; rfl
  · induction locals with
    | nil => intro cache _; rfl
    | cons p rest ih =>
      intro cache h
      simp only [List.foldl_cons]
      rw [ih _ (fun p2 hp2 => h p2 (List.mem_cons_of_mem p hp2))]
      split
      · exact lookup_mapSet_other _ _ _ _ (fun he => h p (List.mem_cons_self p rest) he.symm)
      · rfl

/-- A cached entry's functions all appear in the aggregated index. -/
theorem mem_getAllFunctions_of_lookup (cache : List (String × CacheEntry))
    (k : String) (e : CacheEntry) (h : cache.lookup k = some e) :
    ∀ fd ∈ e.functions.map Prod.snd, fd ∈ getAllFunctions cache := by
  intro fd hfd
  induction cache with
  | nil => simp [List.lookup] at h
  | cons p rest ih =>
    cases p with
    | mk k2 v2 =>
      simp only [List.lookup] at h
      cases hk : k == k2 with
      | true =>
        rw [hk] at h
        simp only [Option.some.injEq] at h
        subst h
        simp only [getAllFunctions, List.flatMap_cons, List.mem_append]
        exact Or.inl hfd
      | false =>
        rw [hk] at h
        simp only [getAllFunctions, List.flatMap_cons, List.mem_append]
        exact Or.inr (ih h)

/-! ## Claim theorems for the refresh path -/

/-- C8 (amended): for every configuration, cache, and per-source fetch
outcome, a source whose download stage fails (invalid URL, network failure
after retries, HTTP error status, or oversized payload) leaves its cache
entry untouched, while an enabled source whose fetch succeeds (valid URL,
body within the size cap) still completes: its entry holds exactly the
parsed functions and all of them appear in the aggregated index.  (Per the
counterexample, a payload that fails to parse is not covered: the entry is
then replaced by one with an empty function map.) -/
theorem refresh_download_failure_isolated
    (sources : List DocumentationSource) (outcomes : String → FetchOutcome)
    (locals : List (String × String)) (autoLoad : Bool)
    (cache : List (String × CacheEntry))
    (bad good : DocumentationSource)
    (hben : bad.enabled = true) (hbmem : bad ∈ sources)
    (hbunique : ∀ s ∈ sources, s.enabled = true → s.name = bad.name →
      failsDownload s (outcomes s.name))
    (hblocal : ∀ p ∈ locals, ¬("Local: " ++ p.1 = bad.name))
    (hgen : good.enabled = true) (hgmem : good ∈ sources)
    (hgurl : good.urlValid = true)
    (c : String) (j : Option Json) (e lm : Option String)
    (hgout : outcomes good.name = .success c j e lm)
    (hgsize : ¬(c.length > 10 * 1024 * 1024))
    (hgunique : ∀ s ∈ sources, s.enabled = true → s.name = good.name → s = good)
    (hglocal : ∀ p ∈ locals, ¬("Local: " ++ p.1 = good.name)) :
    List.lookup bad.name (refreshDocumentation sources outcomes locals autoLoad cache) =
        List.lookup bad.name cache ∧
      List.lookup good.name (refreshDocumentation sources outcomes locals autoLoad cache) =
        some { functions := parseByType good.type c j good.name,
               etag := e, lastModified := lm } ∧
      ∀ fd ∈ (parseByType good.type c j good.name).map Prod.snd,
        fd ∈ getAllFunctions (refreshDocumentation sources outcomes locals autoLoad cache) := by
  have hgoodF : good ∈ sources.filter (·.enabled) :=
    List.mem_filter.mpr ⟨hgmem, by simp [hgen]⟩
  have hensNe : ¬((sources.filter (·.enabled)).length = 0) := by
    intro h0
    rw [List.length_eq_zero] at h0
    rw [h0] at hgoodF
    exact absurd hgoodF (List.not_mem_nil good)
  unfold refreshDocumentation
  rw [if_neg hensNe]
  have hbadPres :
      ((sources.filter (·.enabled)).foldl
          (fun c2 source => downloadAndParseSource (outcomes source.name) source c2)
          cache).lookup bad.name = cache.lookup bad.name := by
    apply fold_downloads_preserves
    intro s hs hname
    exact hbunique s (List.mem_filter.mp hs).1
      (by simpa using (List.mem_filter.mp hs).2) hname
  have hstep : ∀ c2, downloadAndParseSource (outcomes good.name) good c2 =
      mapSet c2 good.name
        ⟨parseByType good.type c j good.name, e, lm⟩ := by
    intro c2
    simp [downloadAndParseSource, hgurl, hgout, hgsize]
  have hgoodSet :
      ((sources.filter (·.enabled)).foldl
          (fun c2 source => downloadAndParseSource (outcomes source.name) source c2)
          cache).lookup good.name =
        some ⟨parseByType good.type c j good.name, e, lm⟩ := by
    apply fold_downloads_sets outcomes good _ hstep _ cache hgoodF
    intro s hs hname
    exact hgunique s (List.mem_filter.mp hs).1
      (by simpa using (List.mem_filter.mp hs).2) hname
  have hglook :
      (loadLocalTypesFiles locals autoLoad
          ((sources.filter (·.enabled)).foldl
            (fun c2 source => downloadAndParseSource (outcomes source.name) source c2)
            cache)).lookup good.name =
        some ⟨parseByType good.type c j good.name, e, lm⟩ := by
    rw [loadLocal_other locals autoLoad good.name _ hglocal]
    exact hgoodSet
  refine ⟨?_, hglook, ?_⟩
  · rw [loadLocal_other locals autoLoad bad.name _ hblocal]
    exact hbadPres
  · intro fd hfd
    exact mem_getAllFunctions_of_lookup _ good.name _ hglook fd hfd

/-- The concrete two-source scenario used by the C8 counterexample and
witness: one healthy `lua_types` source and one `natives` source whose body
is not valid JSON. -/
def cexGoodSource : DocumentationSource :=
  { name := "good", urlValid := true, type := SourceType.lua_types, enabled := true }

def cexNativesSource : DocumentationSource :=
  { name := "nat", urlValid := true, type := SourceType.natives, enabled := true }

def cexBadNetSource : DocumentationSource :=
  { name := "bad", urlValid := true, type := SourceType.lua_types, enabled := true }

def cexPriorDoc : FunctionDoc :=
  { name := "OldFn", source := "nat", description := "old", parameters := [],
    returns := none, examples := none }

def cexPriorEntry : CacheEntry :=
  { functions := [("OldFn", cexPriorDoc)], etag := none, lastModified := none }

def cexOutcomes : String → FetchOutcome := fun n =>
  if n = "good" then FetchOutcome.success "function foo(a)\nend" none none none
  else FetchOutcome.success "bad json" none none none

def wOutcomes : String → FetchOutcome := fun n =>
  if n = "good" then FetchOutcome.success "function foo(a)\nend" none none none
  else FetchOutcome.networkFailure

/-- C8 counterexample: with two enabled sources, the `natives` source whose
payload fails JSON parsing does not keep its prior cache entry — the entry is
replaced by one with an empty function map — even though the sibling source
still completes.  This refutes the claim that a parse error leaves the failed
source's cache entry unchanged. -/
theorem refresh_parse_error_replaces_entry :
    (refreshDocumentation [cexGoodSource, cexNativesSource] cexOutcomes [] true
        [("nat", cexPriorEntry)]).lookup "nat" =
      some { functions := [], etag := none, lastModified := none } ∧
    (some { functions := [], etag := none, lastModified := none } : Option CacheEntry) ≠
      some cexPriorEntry ∧
    ((refreshDocumentation [cexGoodSource, cexNativesSource] cexOutcomes [] true
        [("nat", cexPriorEntry)]).lookup "good").isSome = true := by
  refine ⟨?_, ?_, ?_⟩ <;> decide

theorem refresh_download_failure_isolated_witness :
    cexBadNetSource.enabled = true ∧ cexBadNetSource ∈ [cexGoodSource, cexBadNetSource] ∧
    cexGoodSource.urlValid = true ∧
    wOutcomes cexGoodSource.name = .success "function foo(a)\nend" none none none ∧
    (List.lookup cexBadNetSource.name
        (refreshDocumentation [cexGoodSource, cexBadNetSource] wOutcomes [] true []) =
      List.lookup cexBadNetSource.name ([] : List (String × CacheEntry)) ∧
    List.lookup cexGoodSource.name
        (refreshDocumentation [cexGoodSource, cexBadNetSource] wOutcomes [] true []) =
      some { functions :=
               parseByType cexGoodSource.type "function foo(a)\nend" none cexGoodSource.name,
             etag := none, lastModified := none } ∧
    ∀ fd ∈ (parseByType cexGoodSource.type "function foo(a)\nend" none
        cexGoodSource.name).map Prod.snd,
      fd ∈ getAllFunctions
        (refreshDocumentation [cexGoodSource, cexBadNetSource] wOutcomes [] true [])) := by
  refine ⟨rfl, by decide, rfl, rfl, ?_⟩
  apply refresh_download_failure_isolated
    [cexGoodSource, cexBadNetSource] wOutcomes [] true []
    cexBadNetSource cexGoodSource rfl (by decide)
    ?hbu (fun p hp => absurd hp (List.not_mem_nil p))
    rfl (by decide) rfl
    "function foo(a)\nend" none none none rfl (by decide)
    ?hgu (fun p hp => absurd hp (List.not_mem_nil p))
  case hbu =>
    intro s hs _ hname
    rcases List.mem_cons.mp hs with rfl | hs2
    · exact absurd hname (by decide)
    · rcases List.mem_cons.mp hs2 with rfl | hs3
      · exact Or.inr (Or.inl rfl)
      · exact absurd hs3 (List.not_mem_nil s)
  case hgu =>
    intro s hs _ hname
    rcases List.mem_cons.mp hs with rfl | hs2
    · rfl
    · rcases List.mem_cons.mp hs2 with rfl | hs3
      · exact absurd hname (by decide)
      · exact absurd hs3 (List.not_mem_nil s)

end FxLua
